import Mathlib

/-
Verification of the traffic-admission / traffic-distribution core of the
rdp-signaling-server repository: the sliding-window rate limiter
(src/rateLimiter.ts) and the load balancer with its selection strategies,
sticky sessions and circuit breaker (src/loadBalancer.ts).

Modelling conventions (shallow embedding of the TypeScript source):
 - Timestamps and millisecond durations are ℤ (JavaScript numbers holding
   integer millisecond values; Date.now() is passed in explicitly as `now`,
   once per method, matching the single read per method body in the source).
 - JavaScript `Map` objects are association lists with unique keys;
   `set` replaces in place or appends, `delete` removes the key.
 - JS truthiness tests that the source performs on numbers and strings are
   modelled exactly: a number is truthy iff it is nonzero, a string is
   truthy iff it is nonempty.
 - The float literals 0.8 / 0.9 / 0.3 / 0.2 in threshold and score
   arithmetic are modelled as exact rationals (the comparisons the claims
   exercise involve only small integers, where the float and rational
   comparisons agree).
 - Stateful methods become functions from state (plus `now`) to
   result × state.
-/

namespace RdpSignal

/-! ## Association-list model of JavaScript Map -/

def assocGet {α : Type} (m : List (String × α)) (k : String) : Option α :=
  (m.find? (fun p => p.1 == k)).map Prod.snd

def assocSet {α : Type} : List (String × α) → String → α → List (String × α)
  | [], k, v => [(k, v)]
  | (k0, v0) :: rest, k, v =>
    if k0 == k then (k0, v) :: rest else (k0, v0) :: assocSet rest k v

def assocErase {α : Type} (m : List (String × α)) (k : String) : List (String × α) :=
  m.filter (fun p => p.1 != k)

/-! ## Rate limiter (src/rateLimiter.ts) -/

/-- `RateLimitConfig` (rateLimiter.ts lines 3–8); the optional skip flags
default to `false` (absent = undefined = falsy). -/
structure RateLimitConfig where
  windowMs : ℤ
  max : ℕ
  skipSuccessfulRequests : Bool
  skipFailedRequests : Bool
deriving DecidableEq, Repr

/-- `ClientData` (rateLimiter.ts lines 10–17). -/
structure ClientData where
  requests : List ℤ
  blocked : Bool
  blockedUntil : Option ℤ
  warnings : ℕ
  totalRequests : ℕ
  suspiciousActivity : Bool
deriving DecidableEq, Repr

/-- Result record of `checkLimit`. -/
structure CheckResult where
  allowed : Bool
  remaining : ℕ
  retryAfter : Option ℤ
deriving DecidableEq, Repr

abbrev ClientMap := List (String × ClientData)

/-- The fresh client record created on first observation
(rateLimiter.ts lines 42–51 and 143–149). -/
def freshClient : ClientData :=
  { requests := [], blocked := false, blockedUntil := none,
    warnings := 0, totalRequests := 0, suspiciousActivity := false }

/-- JS truthiness of the `blockedUntil` field: defined and nonzero. -/
def truthyBU : Option ℤ → Bool
  | some v => v != 0
  | none => false

/-- `Math.ceil(a / 1000)`; the source only applies it to positive `a`,
where this integer form agrees with the float computation. -/
def ceilDiv1000 (a : ℤ) : ℤ := (a + 999) / 1000

/-- `getBlockDuration` (rateLimiter.ts lines 115–125). -/
def getBlockDuration (c : ClientData) : ℤ :=
  let baseBlock : ℤ := 60000
  let multiplier : ℕ := min c.warnings 10
  if c.suspiciousActivity then baseBlock * multiplier * 2
  else baseBlock * 2 ^ (min multiplier 5)

/-- `detectSuspiciousActivity` (rateLimiter.ts lines 102–113);
`L > 0.8*max` and `L > 0.9*max` written as the exact rational
comparisons `5*L > 4*max` and `10*L > 9*max`. -/
def detectSuspiciousActivity (cfg : RateLimitConfig) (c : ClientData) (now : ℤ) :
    ClientData :=
  let recentRequests := c.requests.filter (fun t => t > now - 10000)
  let c1 := if recentRequests.length * 5 > cfg.max * 4
            then { c with suspiciousActivity := true } else c
  if c.requests.length * 10 > cfg.max * 9
  then { c1 with suspiciousActivity := true } else c1

/-- Body of `checkLimit` acting on a single client record
(rateLimiter.ts lines 38–100), with `now` the single `Date.now()` read. -/
def checkLimitClient (cfg : RateLimitConfig) (c : ClientData) (isSuccess : Bool)
    (now : ℤ) : CheckResult × ClientData :=
  if c.blocked && truthyBU c.blockedUntil && decide (now < c.blockedUntil.getD 0) then
    ({ allowed := false, remaining := 0,
       retryAfter := some (ceilDiv1000 (c.blockedUntil.getD 0 - now)) }, c)
  else
    let c := if c.blocked && truthyBU c.blockedUntil &&
                decide (now ≥ c.blockedUntil.getD 0)
             then { c with blocked := false, blockedUntil := none, requests := [] }
             else c
    if (isSuccess && cfg.skipSuccessfulRequests) ||
       (!isSuccess && cfg.skipFailedRequests) then
      ({ allowed := true, remaining := cfg.max, retryAfter := none }, c)
    else
      let windowStart := now - cfg.windowMs
      let c := { c with requests := c.requests.filter (fun t => t > windowStart) }
      let c := { c with totalRequests := c.totalRequests + 1 }
      let c := detectSuspiciousActivity cfg c now
      if c.requests.length ≥ cfg.max then
        let c := { c with blocked := true,
                          blockedUntil := some (now + getBlockDuration c) }
        let c := { c with warnings := c.warnings + 1 }
        ({ allowed := false, remaining := 0,
           retryAfter := some (ceilDiv1000 (getBlockDuration c)) }, c)
      else
        let c := { c with requests := c.requests ++ [now] }
        ({ allowed := true, remaining := cfg.max - c.requests.length,
           retryAfter := none }, c)

/-- `RateLimiter.checkLimit` over the client map: looks up or creates the
client record, runs the per-client body, stores the final record. -/
def checkLimit (cfg : RateLimitConfig) (m : ClientMap) (clientId : String)
    (isSuccess : Bool) (now : ℤ) : CheckResult × ClientMap :=
  let c := (assocGet m clientId).getD freshClient
  let r := checkLimitClient cfg c isSuccess now
  (r.1, assocSet m clientId r.2)

/-- `RateLimiter.isBlocked` (rateLimiter.ts lines 127–136). -/
def isBlocked (m : ClientMap) (clientId : String) (now : ℤ) : Bool :=
  match assocGet m clientId with
  | none => false
  | some c => c.blocked && truthyBU c.blockedUntil &&
                decide (now < c.blockedUntil.getD 0)

/-- Default `duration` argument of `blacklistClient`: 24 hours. -/
def blacklistDefaultDuration : ℤ := 24 * 60 * 60 * 1000

/-- `RateLimiter.blacklistClient` (rateLimiter.ts lines 142–156). -/
def blacklistClient (m : ClientMap) (clientId : String) (now : ℤ) (duration : ℤ) :
    ClientMap :=
  let c := (assocGet m clientId).getD freshClient
  assocSet m clientId
    { c with blocked := true, blockedUntil := some (now + duration),
             suspiciousActivity := true }

/-! ## Load balancer (src/loadBalancer.ts) -/

/-- `ServerNode` (loadBalancer.ts lines 4–16). Connection counters and
weights are ℤ (arbitrary JS numbers can be written into them); the
performance-score inputs are ℚ. -/
structure ServerNode where
  id : String
  host : String
  port : ℤ
  isHealthy : Bool
  lastHealthCheck : ℤ
  activeConnections : ℤ
  maxConnections : ℤ
  cpuUsage : ℚ
  memoryUsage : ℚ
  responseTime : ℚ
  weight : ℤ
deriving DecidableEq, Repr

/-- The filter predicate every strategy applies:
`node.isHealthy && node.activeConnections < node.maxConnections`. -/
def selectable (n : ServerNode) : Bool :=
  n.isHealthy && decide (n.activeConnections < n.maxConnections)

/-- `RoundRobinStrategy.selectServer` (lines 27–38); the private
`currentIndex` is passed and returned explicitly. -/
def rrSelectServer (currentIndex : ℕ) (nodes : List ServerNode) :
    Option ServerNode × ℕ :=
  let healthyNodes := nodes.filter selectable
  if h : healthyNodes.length = 0 then (none, currentIndex)
  else
    (some (healthyNodes.get ⟨currentIndex % healthyNodes.length,
            Nat.mod_lt _ (Nat.pos_of_ne_zero h)⟩),
     (currentIndex + 1) % healthyNodes.length)

/-- `LeastConnectionsStrategy.selectServer` (lines 44–56);
`reduce` without seed = fold of the tail over the head. -/
def lcSelectServer (nodes : List ServerNode) : Option ServerNode :=
  let availableNodes := nodes.filter selectable
  match availableNodes with
  | [] => none
  | hd :: tl =>
    some (tl.foldl
      (fun m n => if n.activeConnections < m.activeConnections then n else m) hd)

/-- `calculatePerformanceScore` (lines 146–162); the float weights 0.3/0.2
and the divisions are exact rationals (ℚ division by zero yields 0 where JS
would yield ±Infinity; no claim depends on score values). -/
def calculatePerformanceScore (n : ServerNode) : ℚ :=
  let connectionRatio : ℚ := (n.activeConnections : ℚ) / (n.maxConnections : ℚ)
  let normalizedResponseTime : ℚ := min (n.responseTime / 1000) 1
  n.cpuUsage * (3 / 10) + n.memoryUsage * (3 / 10) +
    connectionRatio * 100 * (1 / 5) + normalizedResponseTime * 100 * (1 / 5)

/-- `PerformanceBasedStrategy.selectServer` (lines 125–144): stable sort by
ascending score, return the first element. -/
def pbSelectServer (nodes : List ServerNode) : Option ServerNode :=
  let availableNodes := nodes.filter selectable
  match availableNodes with
  | [] => none
  | l => (l.mergeSort
      (fun a b => calculatePerformanceScore a ≤ calculatePerformanceScore b)).head?

/-- Entry of the weighted-round-robin queue (lines 61). -/
structure WQEntry where
  server : ServerNode
  remainingWeight : ℤ
deriving DecidableEq, Repr

/-- The in-place update `entry.server = node` on the first queue entry whose
server id matches (lines 112–116). -/
def refreshFirst : List WQEntry → ServerNode → List WQEntry
  | [], _ => []
  | e :: rest, n =>
    if e.server.id = n.id then { e with server := n } :: rest
    else e :: refreshFirst rest n

/-- One iteration of the add-or-refresh loop of `updateWeightedQueue`
(lines 104–118). -/
def pushOrRefresh (q : List WQEntry) (n : ServerNode) : List WQEntry :=
  if q.any (fun e => e.server.id == n.id) then refreshFirst q n
  else q ++ [{ server := n, remainingWeight := n.weight }]

/-- `WeightedRoundRobinStrategy.updateWeightedQueue` (lines 98–119). -/
def updateWeightedQueue (q : List WQEntry) (nodes : List ServerNode) :
    List WQEntry :=
  let filtered := q.filter
    (fun e => nodes.any (fun n => n.id == e.server.id && selectable n))
  nodes.foldl pushOrRefresh filtered

/-- The `find`-then-decrement step of the weighted strategy (lines 80–91):
first entry with positive remaining weight, decremented in place. -/
def pickFirstPos : List WQEntry → Option (ServerNode × List WQEntry)
  | [] => none
  | e :: rest =>
    if e.remainingWeight > 0 then
      some (e.server, { e with remainingWeight := e.remainingWeight - 1 } :: rest)
    else
      match pickFirstPos rest with
      | some (s, rest2) => some (s, e :: rest2)
      | none => none

/-- `WeightedRoundRobinStrategy.selectServer` (lines 63–96); the private
queue is passed and returned explicitly.  When no entry has remaining
weight, every entry is reset to its server's weight and the first entry is
taken (lines 82–88). -/
def wrrSelectServer (q : List WQEntry) (nodes : List ServerNode) :
    Option ServerNode × List WQEntry :=
  let healthyNodes := nodes.filter selectable
  if healthyNodes.isEmpty then (none, q)
  else
    let q := updateWeightedQueue q healthyNodes
    if q.isEmpty then (none, q)
    else
      match pickFirstPos q with
      | some (s, q2) => (some s, q2)
      | none =>
        match q.map (fun e => { e with remainingWeight := e.server.weight }) with
        | [] => (none, [])
        | e :: rest =>
          (some e.server,
           { e with remainingWeight := e.remainingWeight - 1 } :: rest)

/-- Iterated weighted-round-robin selection: the trace of selected servers
over `k` consecutive `selectServer` calls against a fixed node list,
together with the final queue state. -/
def wrrRun (q : List WQEntry) (nodes : List ServerNode) :
    ℕ → List ServerNode × List WQEntry
  | 0 => ([], q)
  | Nat.succ k =>
    let p := wrrSelectServer q nodes
    let r := wrrRun p.2 nodes k
    (match p.1 with
     | some s => s :: r.1
     | none => r.1, r.2)

/-! ### Circuit breaker (lines 375–425) -/

/-- The breaker state strings; `opened` models the source's `'open'`
(a Lean keyword). -/
inductive BreakerState where
  | closed
  | opened
  | halfOpen
deriving DecidableEq, Repr

structure CircuitBreaker where
  failures : ℕ
  lastFailureTime : ℤ
  state : BreakerState
deriving DecidableEq, Repr

/-- Per-breaker body of `isCircuitOpen` (lines 382–397). -/
def isCircuitOpenBreaker (b : CircuitBreaker) (now : ℤ) : Bool × CircuitBreaker :=
  if b.state = BreakerState.opened then
    if now - b.lastFailureTime > 60000 then
      (false, { b with state := BreakerState.halfOpen, failures := 0 })
    else (true, b)
  else (false, b)

/-- Per-breaker body of `recordFailure` (lines 399–413). -/
def recordFailureBreaker (b : CircuitBreaker) (now : ℤ) : CircuitBreaker :=
  let b := { b with failures := b.failures + 1, lastFailureTime := now }
  if b.failures ≥ 5 then { b with state := BreakerState.opened } else b

/-- Per-breaker body of `recordSuccess` (lines 415–424). -/
def recordSuccessBreaker (b : CircuitBreaker) : CircuitBreaker :=
  if b.state = BreakerState.halfOpen then
    { b with state := BreakerState.closed, failures := 0 }
  else b

abbrev BreakerMap := List (String × CircuitBreaker)

def freshBreaker : CircuitBreaker :=
  { failures := 0, lastFailureTime := 0, state := BreakerState.closed }

/-- `LoadBalancer.isCircuitOpen` over the breaker table. -/
def lbIsCircuitOpen (m : BreakerMap) (serverId : String) (now : ℤ) :
    Bool × BreakerMap :=
  match assocGet m serverId with
  | none => (false, m)
  | some b =>
    let r := isCircuitOpenBreaker b now
    (r.1, assocSet m serverId r.2)

/-- `LoadBalancer.recordFailure` over the breaker table (creates the
breaker on first failure). -/
def lbRecordFailure (m : BreakerMap) (serverId : String) (now : ℤ) : BreakerMap :=
  let b := (assocGet m serverId).getD freshBreaker
  assocSet m serverId (recordFailureBreaker b now)

/-- `LoadBalancer.recordSuccess` over the breaker table (no-op when the
breaker is absent). -/
def lbRecordSuccess (m : BreakerMap) (serverId : String) : BreakerMap :=
  match assocGet m serverId with
  | none => m
  | some b => assocSet m serverId (recordSuccessBreaker b)

/-! ### Load balancer registry state and operations -/

abbrev NodeMap := List (String × ServerNode)

/-- The mutable state owned by a `LoadBalancer` instance: the node
registry, the sticky-session map and the circuit-breaker table. -/
structure LBState where
  nodes : NodeMap
  stickySessionMap : List (String × String)
  circuitBreakers : BreakerMap
deriving DecidableEq, Repr

/-- The `addServer` argument: a `ServerNode` minus the fields the method
itself initialises (lines 176–189; the subsequent async health probe is
network I/O and is not modelled — it does not touch `activeConnections`). -/
structure ServerConfig where
  id : String
  host : String
  port : ℤ
  maxConnections : ℤ
  cpuUsage : ℚ
  memoryUsage : ℚ
  responseTime : ℚ
  weight : ℤ
deriving DecidableEq, Repr

def addServer (st : LBState) (config : ServerConfig) : LBState :=
  let node : ServerNode :=
    { id := config.id, host := config.host, port := config.port,
      isHealthy := false, lastHealthCheck := 0, activeConnections := 0,
      maxConnections := config.maxConnections, cpuUsage := config.cpuUsage,
      memoryUsage := config.memoryUsage, responseTime := config.responseTime,
      weight := config.weight }
  { st with nodes := assocSet st.nodes node.id node }

/-- `removeServer` (lines 191–199). -/
def removeServer (st : LBState) (serverId : String) : Bool × LBState :=
  match assocGet st.nodes serverId with
  | some _ => (true, { st with nodes := assocErase st.nodes serverId })
  | none => (false, st)

/-- The `Partial<Pick<...>>` stats argument of `updateServerStats`. -/
structure StatsPatch where
  cpuUsage : Option ℚ
  memoryUsage : Option ℚ
  responseTime : Option ℚ
  activeConnections : Option ℤ
deriving DecidableEq, Repr

/-- `Object.assign(node, stats)`: present fields overwrite. -/
def applyStats (n : ServerNode) (p : StatsPatch) : ServerNode :=
  { n with cpuUsage := p.cpuUsage.getD n.cpuUsage,
           memoryUsage := p.memoryUsage.getD n.memoryUsage,
           responseTime := p.responseTime.getD n.responseTime,
           activeConnections := p.activeConnections.getD n.activeConnections }

/-- `updateServerStats` (lines 201–207). -/
def updateServerStats (st : LBState) (serverId : String) (stats : StatsPatch) :
    LBState :=
  match assocGet st.nodes serverId with
  | some n => { st with nodes := assocSet st.nodes serverId (applyStats n stats) }
  | none => st

/-- `incrementConnection` (lines 222–228). -/
def incrementConnection (st : LBState) (serverId : String) : LBState :=
  match assocGet st.nodes serverId with
  | some n =>
    let n2 := { n with activeConnections := n.activeConnections + 1 }
    { st with nodes := assocSet st.nodes serverId n2 }
  | none => st

/-- `decrementConnection` (lines 230–236): `Math.max(0, a - 1)`. -/
def decrementConnection (st : LBState) (serverId : String) : LBState :=
  match assocGet st.nodes serverId with
  | some n =>
    let n2 := { n with activeConnections := max 0 (n.activeConnections - 1) }
    { st with nodes := assocSet st.nodes serverId n2 }
  | none => st

/-- `assignStickySession` (lines 353–355). -/
def assignStickySession (st : LBState) (sessionId serverId : String) : LBState :=
  { st with stickySessionMap := assocSet st.stickySessionMap sessionId serverId }

/-- `getStickyServer` (lines 357–369); `if (serverId)` is JS truthiness:
the branch is taken only for a defined, nonempty id. -/
def getStickyServer (st : LBState) (sessionId : String) :
    Option ServerNode × LBState :=
  match assocGet st.stickySessionMap sessionId with
  | some serverId =>
    if serverId ≠ "" then
      match assocGet st.nodes serverId with
      | some server =>
        if server.isHealthy ∧ server.activeConnections < server.maxConnections then
          (some server, st)
        else
          (none, { st with
            stickySessionMap := assocErase st.stickySessionMap sessionId })
      | none =>
        (none, { st with
          stickySessionMap := assocErase st.stickySessionMap sessionId })
    else (none, st)
  | none => (none, st)

/-! ## Helper lemmas on the Map model -/

theorem assocGet_cons {α : Type} (k0 k : String) (v0 : α)
    (rest : List (String × α)) :
    assocGet ((k0, v0) :: rest) k =
      (if k0 == k then some v0 else assocGet rest k) := by
  by_cases h : (k0 == k) = true
  · simp [assocGet, List.find?_cons_of_pos _ h, h]
  · simp [assocGet, List.find?_cons_of_neg _ h, h]

theorem assocGet_assocSet_self {α : Type} (m : List (String × α)) (k : String)
    (v : α) : assocGet (assocSet m k v) k = some v := by
  induction m with
  | nil => simp [assocGet, assocSet]
  | cons p rest ih =>
    obtain ⟨k0, v0⟩ := p
    by_cases h : (k0 == k) = true
    · simp [assocSet, h, assocGet_cons]
    · simp [assocSet, h, assocGet_cons, ih]

theorem assocSet_self {α : Type} (m : List (String × α)) (k : String) (v : α)
    (h : assocGet m k = some v) : assocSet m k v = m := by
  induction m with
  | nil => simp [assocGet] at h
  | cons p rest ih =>
    obtain ⟨k0, v0⟩ := p
    rw [assocGet_cons] at h
    by_cases hk : (k0 == k) = true
    · rw [if_pos hk] at h
      simp only [Option.some_inj] at h
      simp [assocSet, hk, h]
    · rw [if_neg hk] at h
      simp [assocSet, hk, ih h]

theorem assocGet_assocErase_self {α : Type} (m : List (String × α)) (k : String) :
    assocGet (assocErase m k) k = none := by
  induction m with
  | nil => simp [assocGet, assocErase]
  | cons p rest ih =>
    obtain ⟨k0, v0⟩ := p
    by_cases hk : (k0 == k) = true
    · have : (k0 != k) = false := by simp [bne]; simpa using hk
      simpa [assocErase, List.filter_cons, this] using ih
    · have : (k0 != k) = true := by simp [bne]; simpa using hk
      simp only [assocErase, List.filter_cons, this, if_true]
      rw [assocGet_cons, if_neg hk]
      simpa [assocErase] using ih

theorem mem_assocSet {α : Type} (m : List (String × α)) (k : String) (v : α)
    (p : String × α) (hp : p ∈ assocSet m k v) : p = (k, v) ∨ p ∈ m := by
  induction m with
  | nil => simpa [assocSet] using hp
  | cons q rest ih =>
    obtain ⟨k0, v0⟩ := q
    by_cases hk : (k0 == k) = true
    · simp only [assocSet, hk, if_true, List.mem_cons] at hp
      rcases hp with h | h
      · left
        have : k0 = k := by simpa using hk
        simp [h, this]
      · right; simp [h]
    · simp only [assocSet, hk, if_false, Bool.false_eq_true, List.mem_cons] at hp
      rcases hp with h | h
      · right; simp [h]
      · rcases ih h with h2 | h2
        · left; exact h2
        · right; simp [h2]

theorem assocGet_mem {α : Type} (m : List (String × α)) (k : String) (v : α)
    (h : assocGet m k = some v) : (k, v) ∈ m := by
  induction m with
  | nil => simp [assocGet] at h
  | cons p rest ih =>
    obtain ⟨k0, v0⟩ := p
    rw [assocGet_cons] at h
    by_cases hk : (k0 == k) = true
    · rw [if_pos hk] at h
      simp only [Option.some_inj] at h
      have hk2 : k0 = k := by simpa using hk
      simp [hk2, h]
    · rw [if_neg hk] at h
      right
      exact ih h

/-! ## Claim C5: penalty-duration algebra -/

/-- C5 counterexample: at `warnings = 0` the suspicious penalty duration is
`60000 * min 0 10 * 2 = 0`, strictly smaller than the non-suspicious
duration `60000 * 2^0 = 60000`, refuting "strictly greater when
`suspiciousActivity = true`". -/
theorem c5_counterexample :
    getBlockDuration { freshClient with suspiciousActivity := true } = 0 ∧
    getBlockDuration freshClient = 60000 ∧
    ¬ (getBlockDuration freshClient <
        getBlockDuration { freshClient with suspiciousActivity := true }) := by
  decide

/-- C5 (amended): the penalty duration is monotonically non-decreasing in
`warnings` for a fixed suspicion state, and for equal `warnings` the
suspicious duration is never strictly greater than the non-suspicious one
(it is at most equal to it). -/
theorem c5_amended (c c2 : ClientData) :
    (c.suspiciousActivity = c2.suspiciousActivity → c.warnings ≤ c2.warnings →
      getBlockDuration c ≤ getBlockDuration c2) ∧
    (c.warnings = c2.warnings → c.suspiciousActivity = true →
      c2.suspiciousActivity = false →
      getBlockDuration c ≤ getBlockDuration c2) := by
  constructor
  · intro hs hw
    have hmin : min c.warnings 10 ≤ min c2.warnings 10 :=
      min_le_min hw (le_refl 10)
    unfold getBlockDuration
    rw [hs]
    cases h : c2.suspiciousActivity with
    | true =>
      simp only [if_true]
      have hc : ((min c.warnings 10 : ℕ) : ℤ) ≤ ((min c2.warnings 10 : ℕ) : ℤ) := by
        exact_mod_cast hmin
      linarith
    | false =>
      simp only [if_false, Bool.false_eq_true]
      have hexp : min (min c.warnings 10) 5 ≤ min (min c2.warnings 10) 5 :=
        min_le_min hmin (le_refl 5)
      have hp : (2 : ℤ) ^ min (min c.warnings 10) 5 ≤
          (2 : ℤ) ^ min (min c2.warnings 10) 5 :=
        pow_le_pow_right₀ (by norm_num) hexp
      linarith
  · intro hw hs hs2
    unfold getBlockDuration
    rw [hs, hs2, hw]
    simp only [if_true, if_false, Bool.false_eq_true]
    have key : ∀ m : ℕ, m < 11 →
        (60000 : ℤ) * m * 2 ≤ 60000 * 2 ^ (min m 5) := by decide
    exact key (min c2.warnings 10)
      (lt_of_le_of_lt (min_le_right _ _) (by norm_num))

/-- C5 witness: concrete instances of both conjuncts of `c5_amended`. -/
theorem c5_amended_witness :
    getBlockDuration freshClient ≤
      getBlockDuration { freshClient with warnings := 3 } ∧
    getBlockDuration
        { freshClient with warnings := 3, suspiciousActivity := true } ≤
      getBlockDuration { freshClient with warnings := 3 } :=
  ⟨(c5_amended freshClient { freshClient with warnings := 3 }).1 rfl
      (by decide),
   (c5_amended { freshClient with warnings := 3, suspiciousActivity := true }
      { freshClient with warnings := 3 }).2 rfl rfl rfl⟩

/-! ## Claim C3: circuit-breaker state machine -/

/-- `n` consecutive `recordFailure` calls on one breaker. -/
def iterFailures (b : CircuitBreaker) (now : ℤ) : ℕ → CircuitBreaker
  | 0 => b
  | Nat.succ k => recordFailureBreaker (iterFailures b now k) now

theorem iterFailures_fresh (now : ℤ) (n : ℕ) :
    (iterFailures freshBreaker now n).failures = n ∧
    (iterFailures freshBreaker now n).state =
      (if 5 ≤ n then BreakerState.opened else BreakerState.closed) := by
  induction n with
  | zero => simp [iterFailures, freshBreaker]
  | succ k ih =>
    obtain ⟨hf, hs⟩ := ih
    have hstep : iterFailures freshBreaker now (k + 1) =
        recordFailureBreaker (iterFailures freshBreaker now k) now := rfl
    rw [hstep]
    unfold recordFailureBreaker
    by_cases h : 5 ≤ k + 1
    · have h2 : k + 1 ≥ 5 := h
      simp [hf, h2, h]
    · have h2 : ¬ (k + 1 ≥ 5) := h
      have h3 : ¬ (5 ≤ k) := by omega
      simp [hf, h2, h, h3] at hs ⊢
      exact hs

/-- C3 counterexample: a breaker in `half-open` state with a reset failure
count records one failure (at time 5) and stays `half-open` — a single
failure while half-open does not transition back to open. -/
theorem c3_counterexample :
    lbRecordFailure [("A", ⟨0, 0, BreakerState.halfOpen⟩)] "A" 5 =
      [("A", ⟨1, 5, BreakerState.halfOpen⟩)] ∧
    (⟨1, 5, BreakerState.halfOpen⟩ : CircuitBreaker).state ≠
      BreakerState.opened := by
  decide

/-- C3 (amended): from closed, exactly 5 recorded failures open the
breaker (4 leave it closed); while open, once more than 60s have elapsed
since the last failure the next `isCircuitOpen` check moves it to
half-open with the failure count reset (otherwise it reports true and
changes nothing); a success while half-open closes it and zeroes the
count; a single failure while half-open leaves it half-open — the count
accumulates and only a fifth failure reopens it. -/
theorem c3_amended (b : CircuitBreaker) (now : ℤ) (n : ℕ) :
    ((iterFailures freshBreaker now n).failures = n ∧
     (iterFailures freshBreaker now n).state =
       (if 5 ≤ n then BreakerState.opened else BreakerState.closed)) ∧
    (b.state = BreakerState.opened → 60000 < now - b.lastFailureTime →
      isCircuitOpenBreaker b now =
        (false, { b with state := BreakerState.halfOpen, failures := 0 })) ∧
    (b.state = BreakerState.opened → now - b.lastFailureTime ≤ 60000 →
      isCircuitOpenBreaker b now = (true, b)) ∧
    (b.state = BreakerState.halfOpen →
      recordSuccessBreaker b =
        { b with state := BreakerState.closed, failures := 0 }) ∧
    (b.state = BreakerState.halfOpen → b.failures + 1 < 5 →
      (recordFailureBreaker b now).state = BreakerState.halfOpen) ∧
    (b.state = BreakerState.halfOpen → b.failures = 0 →
      (iterFailures b now 5).state = BreakerState.opened) := by
  refine ⟨iterFailures_fresh now n, ?_, ?_, ?_, ?_, ?_⟩
  · intro hs ht
    simp [isCircuitOpenBreaker, hs, ht]
  · intro hs ht
    have h2 : ¬ (now - b.lastFailureTime > 60000) := by omega
    simp [isCircuitOpenBreaker, hs, h2]
  · intro hs
    simp [recordSuccessBreaker, hs]
  · intro hs hf
    have h2 : ¬ (b.failures + 1 ≥ 5) := by omega
    simp [recordFailureBreaker, h2, hs]
  · intro hs hf
    obtain ⟨bf, blt, bst⟩ := b
    simp only at hs hf
    subst hs
    subst hf
    rfl

/-- C3 witness: concrete instances of every implication of `c3_amended`
with its hypotheses discharged. -/
theorem c3_amended_witness :
    ((iterFailures freshBreaker 7 5).failures = 5 ∧
     (iterFailures freshBreaker 7 5).state =
       (if 5 ≤ 5 then BreakerState.opened else BreakerState.closed)) ∧
    isCircuitOpenBreaker ⟨5, 0, BreakerState.opened⟩ 70000 =
      (false, ⟨0, 0, BreakerState.halfOpen⟩) ∧
    isCircuitOpenBreaker ⟨5, 0, BreakerState.opened⟩ 50000 =
      (true, ⟨5, 0, BreakerState.opened⟩) ∧
    recordSuccessBreaker ⟨2, 0, BreakerState.halfOpen⟩ =
      ⟨0, 0, BreakerState.closed⟩ ∧
    (recordFailureBreaker ⟨0, 0, BreakerState.halfOpen⟩ 7).state =
      BreakerState.halfOpen ∧
    (iterFailures ⟨0, 0, BreakerState.halfOpen⟩ 7 5).state =
      BreakerState.opened := by
  have h := c3_amended ⟨5, 0, BreakerState.opened⟩ 70000 5
  have h2 := c3_amended ⟨5, 0, BreakerState.opened⟩ 50000 5
  have h3 := c3_amended ⟨2, 0, BreakerState.halfOpen⟩ 7 5
  have h4 := c3_amended ⟨0, 0, BreakerState.halfOpen⟩ 7 5
  exact ⟨h.1, h.2.1 rfl (by norm_num), h2.2.2.1 rfl (by norm_num),
    h3.2.2.2.1 rfl, h4.2.2.2.2.1 rfl (by norm_num), h4.2.2.2.2.2 rfl rfl⟩

/-! ## Claim C9: unknown-id operations are no-ops -/

/-- C9: operations referencing an unregistered server id are no-ops:
`removeServer` returns false with the whole state (nodes, circuit
breakers, sticky sessions) unchanged, and `updateServerStats`,
`incrementConnection`, `decrementConnection` change nothing. -/
theorem c9_no_op (st : LBState) (serverId : String) (stats : StatsPatch)
    (h : assocGet st.nodes serverId = none) :
    removeServer st serverId = (false, st) ∧
    updateServerStats st serverId stats = st ∧
    incrementConnection st serverId = st ∧
    decrementConnection st serverId = st := by
  refine ⟨?_, ?_, ?_, ?_⟩ <;>
    simp [removeServer, updateServerStats, incrementConnection,
      decrementConnection, h]

/-- C9 witness: at a concrete empty registry. -/
theorem c9_no_op_witness :
    removeServer ⟨[], [], []⟩ "x" = (false, ⟨[], [], []⟩) ∧
    updateServerStats ⟨[], [], []⟩ "x" ⟨none, none, none, none⟩ = ⟨[], [], []⟩ ∧
    incrementConnection ⟨[], [], []⟩ "x" = ⟨[], [], []⟩ ∧
    decrementConnection ⟨[], [], []⟩ "x" = ⟨[], [], []⟩ :=
  c9_no_op ⟨[], [], []⟩ "x" ⟨none, none, none, none⟩ rfl

/-! ## Claim C10: blacklistClient on a never-seen client id -/

/-- C10: blacklisting a client id with no existing record is not a no-op:
it creates a window entry that is blocked until `now + duration`
(default duration 24 hours) and flagged suspicious; while the block lasts
`isBlocked` is true and `checkLimit` denies, and once `now + duration` has
passed `isBlocked` is false again. -/
theorem c10_blacklist (cfg : RateLimitConfig) (m : ClientMap)
    (clientId : String) (now duration t : ℤ) (isSuccess : Bool)
    (hfresh : assocGet m clientId = none) :
    assocGet (blacklistClient m clientId now duration) clientId =
      some { requests := [], blocked := true,
             blockedUntil := some (now + duration), warnings := 0,
             totalRequests := 0, suspiciousActivity := true } ∧
    (0 ≤ t → t < now + duration →
      isBlocked (blacklistClient m clientId now duration) clientId t = true ∧
      (checkLimit cfg (blacklistClient m clientId now duration) clientId
          isSuccess t).1.allowed = false) ∧
    (now + duration ≤ t →
      isBlocked (blacklistClient m clientId now duration) clientId t = false) ∧
    blacklistDefaultDuration = 24 * 60 * 60 * 1000 := by
  have hset : assocGet (blacklistClient m clientId now duration) clientId =
      some { requests := [], blocked := true,
             blockedUntil := some (now + duration), warnings := 0,
             totalRequests := 0, suspiciousActivity := true } := by
    unfold blacklistClient
    rw [hfresh]
    exact assocGet_assocSet_self m clientId _
  refine ⟨hset, ?_, ?_, rfl⟩
  · intro ht0 htlt
    have hne : now + duration ≠ 0 := by omega
    constructor
    · simp only [isBlocked, hset]
      simp [truthyBU, hne, htlt]
    · simp only [checkLimit, hset, Option.getD_some]
      simp only [checkLimitClient]
      rw [if_pos]
      simp [truthyBU, hne, htlt]
  · intro hge
    simp only [isBlocked, hset]
    have : ¬ (t < now + duration) := by omega
    simp [this]

/-- C10 witness: blacklist the unseen client "c" at time 0 for the default
24-hour duration; checked at time 1000 (inside) and at the expiry time. -/
theorem c10_blacklist_witness :
    assocGet (blacklistClient [] "c" 0 blacklistDefaultDuration) "c" =
      some { requests := [], blocked := true,
             blockedUntil := some (0 + blacklistDefaultDuration),
             warnings := 0, totalRequests := 0,
             suspiciousActivity := true } ∧
    isBlocked (blacklistClient [] "c" 0 blacklistDefaultDuration) "c" 1000 =
      true ∧
    (checkLimit ⟨60000, 3, false, false⟩
        (blacklistClient [] "c" 0 blacklistDefaultDuration) "c"
        true 1000).1.allowed = false ∧
    isBlocked (blacklistClient [] "c" 0 blacklistDefaultDuration) "c"
      (0 + blacklistDefaultDuration) = false := by
  have h := c10_blacklist ⟨60000, 3, false, false⟩ [] "c" 0
    blacklistDefaultDuration 1000 true rfl
  have h2 := c10_blacklist ⟨60000, 3, false, false⟩ [] "c" 0
    blacklistDefaultDuration (0 + blacklistDefaultDuration) true rfl
  have hin := h.2.1 (by norm_num) (by norm_num [blacklistDefaultDuration])
  exact ⟨h.1, hin.1, hin.2, h2.2.2.1 (le_refl _)⟩

/-! ## Claim C4: behaviour of repeated checks after a denial -/

/-- C4 counterexample: config `{windowMs:1000, max:1}`.  Two calls at time
0: the second is denied with `retryAfter = 120` (suspicion was flagged and
`warnings` incremented before the returned value was computed, while the
stored `blockedUntil` is `0 + 60000*0*2 = 0`).  A repeat call at time 1001
— long before 120 seconds have elapsed — is ALLOWED, refuting the claim
that every repeated call before `retryAfter` seconds is denied. -/
theorem c4_counterexample :
    (checkLimit ⟨1000, 1, false, false⟩
        (checkLimit ⟨1000, 1, false, false⟩ [] "c" true 0).2
        "c" true 0).1 =
      { allowed := false, remaining := 0, retryAfter := some 120 } ∧
    (1001 : ℤ) < 0 + 120 * 1000 ∧
    (checkLimit ⟨1000, 1, false, false⟩
        (checkLimit ⟨1000, 1, false, false⟩
          (checkLimit ⟨1000, 1, false, false⟩ [] "c" true 0).2
          "c" true 0).2
        "c" true 1001).1.allowed = true := by
  decide

/-- C4 (amended): while a client's stored block is actually in force
(`blocked = true`, `blockedUntil = b` nonzero, `now < b`), every
`checkLimit` call is denied with `retryAfter = ceil((b - now)/1000)`,
which is non-increasing as `now` advances, and the state is unchanged.
The `retryAfter` value returned by the denial that installed the block
can however exceed the real block duration `b - now` (it is recomputed
after `warnings` is incremented), so the claim does not hold for the full
`r` seconds — only until `b`. -/
theorem c4_amended (cfg : RateLimitConfig) (m : ClientMap) (clientId : String)
    (c : ClientData) (isSuccess : Bool) (b now now1 now2 : ℤ)
    (hc : assocGet m clientId = some c) (hb : c.blocked = true)
    (hbu : c.blockedUntil = some b) (hb0 : b ≠ 0) :
    (now < b →
      (checkLimit cfg m clientId isSuccess now).1 =
        { allowed := false, remaining := 0,
          retryAfter := some (ceilDiv1000 (b - now)) } ∧
      (checkLimit cfg m clientId isSuccess now).2 = m) ∧
    (now1 ≤ now2 → now2 < b →
      ceilDiv1000 (b - now2) ≤ ceilDiv1000 (b - now1)) := by
  constructor
  · intro hlt
    have hcl : checkLimitClient cfg c isSuccess now =
        ({ allowed := false, remaining := 0,
           retryAfter := some (ceilDiv1000 (b - now)) }, c) := by
      simp only [checkLimitClient]
      rw [if_pos]
      · simp [hbu]
      · simp [hb, hbu, truthyBU, hb0, hlt]
    constructor
    · simp [checkLimit, hc, hcl]
    · simp only [checkLimit, hc, Option.getD_some, hcl]
      exact assocSet_self m clientId c hc
  · intro h12 h2b
    unfold ceilDiv1000
    exact Int.ediv_le_ediv (by norm_num) (by omega)

/-- C4 witness: a concrete blocked client checked inside its block. -/
theorem c4_amended_witness :
    (checkLimit ⟨60000, 3, false, false⟩
        [("c", { requests := [], blocked := true, blockedUntil := some 5000,
                 warnings := 1, totalRequests := 1,
                 suspiciousActivity := false })] "c" true 1000).1 =
      { allowed := false, remaining := 0,
        retryAfter := some (ceilDiv1000 (5000 - 1000)) } ∧
    ceilDiv1000 (5000 - 2000) ≤ ceilDiv1000 (5000 - 1000) := by
  have h := c4_amended ⟨60000, 3, false, false⟩
    [("c", { requests := [], blocked := true, blockedUntil := some 5000,
             warnings := 1, totalRequests := 1,
             suspiciousActivity := false })] "c"
    { requests := [], blocked := true, blockedUntil := some 5000,
      warnings := 1, totalRequests := 1, suspiciousActivity := false }
    true 5000 1000 1000 2000 rfl rfl rfl (by norm_num)
  exact ⟨(h.1 (by norm_num)).1, h.2 (by norm_num) (by norm_num)⟩

/-! ## Claim C2: the 3-then-deny scenario at one instant -/

/-- C2 counterexample: with config `{windowMs:60000, max:3}`, a fresh
client making four calls at instant 0 gets `remaining` 2, 1, 0 and then a
denial whose `retryAfter` is 120, not approximately 60: the fourth call
flags suspicious activity (3 requests in the last 10 s exceeds 0.8*3) and
increments `warnings` to 1 before `retryAfter` is computed from
`getBlockDuration` = 60000*1*2. -/
theorem c2_counterexample :
    (checkLimit ⟨60000, 3, false, false⟩
        (checkLimit ⟨60000, 3, false, false⟩
          (checkLimit ⟨60000, 3, false, false⟩
            (checkLimit ⟨60000, 3, false, false⟩ [] "c" true 0).2
            "c" true 0).2
          "c" true 0).2
        "c" true 0).1 =
      { allowed := false, remaining := 0, retryAfter := some 120 } ∧
    some (120 : ℤ) ≠ some (60 : ℤ) := by
  decide

/-- First call of the C2 scenario at an arbitrary instant `t`. -/
theorem c2call1 (t : ℤ) :
    checkLimit ⟨60000, 3, false, false⟩ [] "c" true t =
      ({ allowed := true, remaining := 2, retryAfter := none },
       [("c", { requests := [t], blocked := false, blockedUntil := none,
                warnings := 0, totalRequests := 1,
                suspiciousActivity := false })]) := by
  simp [checkLimit, checkLimitClient, detectSuspiciousActivity, assocGet,
    assocSet, truthyBU, freshClient]

/-- Second call of the C2 scenario. -/
theorem c2call2 (t : ℤ) :
    checkLimit ⟨60000, 3, false, false⟩
      [("c", { requests := [t], blocked := false, blockedUntil := none,
               warnings := 0, totalRequests := 1,
               suspiciousActivity := false })] "c" true t =
      ({ allowed := true, remaining := 1, retryAfter := none },
       [("c", { requests := [t, t], blocked := false, blockedUntil := none,
                warnings := 0, totalRequests := 2,
                suspiciousActivity := false })]) := by
  have h60 : t - 60000 < t := by omega
  have h10 : t - 10000 < t := by omega
  simp [checkLimit, checkLimitClient, detectSuspiciousActivity, assocGet,
    assocSet, truthyBU, h60, h10]

/-- Third call of the C2 scenario. -/
theorem c2call3 (t : ℤ) :
    checkLimit ⟨60000, 3, false, false⟩
      [("c", { requests := [t, t], blocked := false, blockedUntil := none,
               warnings := 0, totalRequests := 2,
               suspiciousActivity := false })] "c" true t =
      ({ allowed := true, remaining := 0, retryAfter := none },
       [("c", { requests := [t, t, t], blocked := false, blockedUntil := none,
                warnings := 0, totalRequests := 3,
                suspiciousActivity := false })]) := by
  have h60 : t - 60000 < t := by omega
  have h10 : t - 10000 < t := by omega
  simp [checkLimit, checkLimitClient, detectSuspiciousActivity, assocGet,
    assocSet, truthyBU, h60, h10]

/-- Fourth call of the C2 scenario: the three windowed requests reach
`max`, suspicion is flagged (3 > 0.8*3 within 10 s), the stored
`blockedUntil` uses the pre-increment `warnings = 0` (so the block length
is 60000*0*2 = 0 ms) while the returned `retryAfter` uses the
post-increment `warnings = 1` (120 s). -/
theorem c2call4 (t : ℤ) :
    checkLimit ⟨60000, 3, false, false⟩
      [("c", { requests := [t, t, t], blocked := false, blockedUntil := none,
               warnings := 0, totalRequests := 3,
               suspiciousActivity := false })] "c" true t =
      ({ allowed := false, remaining := 0, retryAfter := some 120 },
       [("c", { requests := [t, t, t], blocked := true,
                blockedUntil := some t,
                warnings := 1, totalRequests := 4,
                suspiciousActivity := true })]) := by
  have h60 : t - 60000 < t := by omega
  have h10 : t - 10000 < t := by omega
  simp [checkLimit, checkLimitClient, detectSuspiciousActivity, assocGet,
    assocSet, truthyBU, getBlockDuration, ceilDiv1000, h60, h10]

/-- C2 (amended): with config `{windowMs:60000, max:3}` and a fresh
client, three `checkLimit` calls at the same instant return `allowed=true`
with `remaining` 2, 1, 0, and a fourth immediate call returns
`allowed=false` with `retryAfter = 120` seconds (not ≈60: the fourth call
flags the client suspicious and increments `warnings` before the returned
`retryAfter` is recomputed from `getBlockDuration`). -/
theorem c2_amended (t : ℤ) :
    (checkLimit ⟨60000, 3, false, false⟩ [] "c" true t).1 =
      { allowed := true, remaining := 2, retryAfter := none } ∧
    (checkLimit ⟨60000, 3, false, false⟩
        (checkLimit ⟨60000, 3, false, false⟩ [] "c" true t).2
        "c" true t).1 =
      { allowed := true, remaining := 1, retryAfter := none } ∧
    (checkLimit ⟨60000, 3, false, false⟩
        (checkLimit ⟨60000, 3, false, false⟩
          (checkLimit ⟨60000, 3, false, false⟩ [] "c" true t).2
          "c" true t).2
        "c" true t).1 =
      { allowed := true, remaining := 0, retryAfter := none } ∧
    (checkLimit ⟨60000, 3, false, false⟩
        (checkLimit ⟨60000, 3, false, false⟩
          (checkLimit ⟨60000, 3, false, false⟩
            (checkLimit ⟨60000, 3, false, false⟩ [] "c" true t).2
            "c" true t).2
          "c" true t).2
        "c" true t).1 =
      { allowed := false, remaining := 0, retryAfter := some 120 } := by
  simp [c2call1 t, c2call2 t, c2call3 t, c2call4 t]

/-! ## Claim C7: the activeConnections >= 0 invariant -/

/-- Shorthand for concrete `ServerNode` values used in closed statements:
`mkNode id healthy ac maxC w` (the remaining fields are fixed test data). -/
def mkNode (id : String) (healthy : Bool) (ac maxC w : ℤ) : ServerNode :=
  { id := id, host := "h", port := 1, isHealthy := healthy,
    lastHealthCheck := 0, activeConnections := ac, maxConnections := maxC,
    cpuUsage := 0, memoryUsage := 0, responseTime := 0, weight := w }

/-- Every registered node has a non-negative connection counter. -/
def nonNegConns (st : LBState) : Prop :=
  ∀ p ∈ st.nodes, 0 ≤ p.2.activeConnections

/-- C7 counterexample: `updateServerStats` merges the supplied
`activeConnections` unchecked (`Object.assign`), so a negative stats value
drives the counter below zero — the invariant is NOT preserved by every
operation. -/
theorem c7_counterexample :
    (assocGet
        (updateServerStats
          { nodes := [("A", mkNode "A" true 0 10 1)],
            stickySessionMap := [], circuitBreakers := [] }
          "A" ⟨none, none, none, some (-1)⟩).nodes
        "A").map ServerNode.activeConnections = some (-1) ∧
    ¬ (0 ≤ (-1 : ℤ)) := by
  decide

/-- C7 (amended): `activeConnections >= 0` is preserved by `addServer`,
`removeServer`, `incrementConnection` and `decrementConnection`
(`decrementConnection` floors the counter at zero even when called more
often than `incrementConnection`), and by `updateServerStats` provided
the supplied patch does not itself carry a negative `activeConnections`;
an `updateServerStats` call with a negative value violates it. -/
theorem c7_amended (st : LBState) (config : ServerConfig) (serverId : String)
    (stats : StatsPatch) (h : nonNegConns st) :
    nonNegConns (addServer st config) ∧
    nonNegConns (removeServer st serverId).2 ∧
    ((∀ v, stats.activeConnections = some v → 0 ≤ v) →
      nonNegConns (updateServerStats st serverId stats)) ∧
    nonNegConns (incrementConnection st serverId) ∧
    nonNegConns (decrementConnection st serverId) ∧
    (∀ n, assocGet st.nodes serverId = some n →
      assocGet (decrementConnection st serverId).nodes serverId =
        some ({ n with activeConnections := max 0 (n.activeConnections - 1) })) := by
  refine ⟨?_, ?_, ?_, ?_, ?_, ?_⟩
  · intro p hp
    rcases mem_assocSet _ _ _ p hp with he | hm
    · simp [he]
    · exact h p hm
  · intro p hp
    cases hg : assocGet st.nodes serverId with
    | none => exact h p (by simpa [removeServer, hg] using hp)
    | some n =>
      simp only [removeServer, hg] at hp
      exact h p (List.mem_of_mem_filter hp)
  · intro hv p hp
    cases hg : assocGet st.nodes serverId with
    | none => exact h p (by simpa [updateServerStats, hg] using hp)
    | some n =>
      simp only [updateServerStats, hg] at hp
      rcases mem_assocSet _ _ _ p hp with he | hm
      · subst he
        simp only [applyStats]
        cases hac : stats.activeConnections with
        | none =>
          simp only [hac, Option.getD_none]
          exact h (serverId, n) (assocGet_mem _ _ _ hg)
        | some v => simpa [hac] using hv v hac
      · exact h p hm
  · intro p hp
    cases hg : assocGet st.nodes serverId with
    | none => exact h p (by simpa [incrementConnection, hg] using hp)
    | some n =>
      simp only [incrementConnection, hg] at hp
      rcases mem_assocSet _ _ _ p hp with he | hm
      · subst he
        have := h (serverId, n) (assocGet_mem _ _ _ hg)
        simp only at this ⊢
        omega
      · exact h p hm
  · intro p hp
    cases hg : assocGet st.nodes serverId with
    | none => exact h p (by simpa [decrementConnection, hg] using hp)
    | some n =>
      simp only [decrementConnection, hg] at hp
      rcases mem_assocSet _ _ _ p hp with he | hm
      · subst he
        simp only
        exact le_max_left 0 _
      · exact h p hm
  · intro n hg
    simp only [decrementConnection, hg]
    exact assocGet_assocSet_self _ _ _

/-- C7 witness: the amended invariant at a concrete one-node registry. -/
theorem c7_amended_witness :
    nonNegConns (decrementConnection
      { nodes := [("A", mkNode "A" true 0 10 1)],
        stickySessionMap := [], circuitBreakers := [] } "A") ∧
    nonNegConns (updateServerStats
      { nodes := [("A", mkNode "A" true 0 10 1)],
        stickySessionMap := [], circuitBreakers := [] }
      "A" ⟨none, none, none, some 7⟩) := by
  have h := c7_amended
    { nodes := [("A", mkNode "A" true 0 10 1)],
      stickySessionMap := [], circuitBreakers := [] }
    ⟨"B", "h", 2, 10, 0, 0, 0, 1⟩ "A" ⟨none, none, none, some 7⟩
    (by intro p hp; simp at hp; simp [hp, mkNode])
  refine ⟨h.2.2.2.2.1, h.2.2.1 ?_⟩
  intro v hv
  simp only [Option.some_inj] at hv
  omega

/-! ## Claim C8: sticky-session lookup and eviction -/

/-- C8 counterexample: JS truthiness — `if (serverId)` is false for the
empty-string server id, so a sticky mapping to the registered, healthy,
below-capacity node with id `""` yields `none` AND the stale mapping is
not deleted, refuting both directions of the claim. -/
theorem c8_counterexample :
    getStickyServer
      { nodes := [("", mkNode "" true 0 10 1)],
        stickySessionMap := [("s1", "")], circuitBreakers := [] } "s1" =
      (none,
       { nodes := [("", mkNode "" true 0 10 1)],
         stickySessionMap := [("s1", "")], circuitBreakers := [] }) ∧
    assocGet [("", mkNode "" true 0 10 1)] "" ≠ none ∧
    (mkNode "" true 0 10 1).isHealthy = true ∧
    (mkNode "" true 0 10 1).activeConnections <
      (mkNode "" true 0 10 1).maxConnections := by
  decide

/-- C8 (amended): for every session id whose recorded sticky mapping
targets a NON-EMPTY server id, `getStickyServer` returns the mapped node
iff that node is still registered, healthy and below capacity; otherwise
it deletes the mapping and returns none, so a subsequent call also
returns none.  (For the empty server id the truthiness guard skips both
the lookup and the eviction.) -/
theorem c8_amended (st : LBState) (sessionId serverId : String)
    (h1 : assocGet st.stickySessionMap sessionId = some serverId)
    (h2 : serverId ≠ "") :
    (∀ server, assocGet st.nodes serverId = some server →
      server.isHealthy = true →
      server.activeConnections < server.maxConnections →
      getStickyServer st sessionId = (some server, st)) ∧
    ((∀ server, assocGet st.nodes serverId = some server →
        ¬ (server.isHealthy = true ∧
           server.activeConnections < server.maxConnections)) →
      getStickyServer st sessionId =
        (none, { st with stickySessionMap :=
                   assocErase st.stickySessionMap sessionId }) ∧
      (getStickyServer
        { st with stickySessionMap :=
            assocErase st.stickySessionMap sessionId } sessionId).1 =
        none) := by
  constructor
  · intro server hg hh hc
    simp [getStickyServer, h1, h2, hg, hh, hc]
  · intro hbad
    have hsecond : (getStickyServer
        { st with stickySessionMap :=
            assocErase st.stickySessionMap sessionId } sessionId).1 =
        none := by
      simp [getStickyServer, assocGet_assocErase_self]
    cases hg : assocGet st.nodes serverId with
    | none => exact ⟨by simp [getStickyServer, h1, h2, hg], hsecond⟩
    | some server =>
      have hns := hbad server hg
      refine ⟨?_, hsecond⟩
      simp only [getStickyServer, h1, h2, hg]
      rw [if_pos h2, if_neg hns]

/-- C8 witness: a healthy mapped node is returned; an unhealthy mapped
node is evicted and a second lookup returns none. -/
theorem c8_amended_witness :
    getStickyServer
      { nodes := [("A", mkNode "A" true 0 10 1)],
        stickySessionMap := [("s1", "A")], circuitBreakers := [] } "s1" =
      (some (mkNode "A" true 0 10 1),
       { nodes := [("A", mkNode "A" true 0 10 1)],
         stickySessionMap := [("s1", "A")], circuitBreakers := [] }) ∧
    getStickyServer
      { nodes := [("B", mkNode "B" false 0 10 1)],
        stickySessionMap := [("s1", "B")], circuitBreakers := [] } "s1" =
      (none,
       { nodes := [("B", mkNode "B" false 0 10 1)],
         stickySessionMap := [], circuitBreakers := [] }) := by
  have hA := c8_amended
    { nodes := [("A", mkNode "A" true 0 10 1)],
      stickySessionMap := [("s1", "A")], circuitBreakers := [] }
    "s1" "A" rfl (by decide)
  have hB := c8_amended
    { nodes := [("B", mkNode "B" false 0 10 1)],
      stickySessionMap := [("s1", "B")], circuitBreakers := [] }
    "s1" "B" rfl (by decide)
  constructor
  · exact hA.1 _ rfl rfl (by decide)
  · have h2c := (hB.2 (by
      intro server hg
      simp [assocGet] at hg
      subst hg
      decide)).1
    rw [h2c]
    decide

/-! ## Claim C1: strategy safety lemmas -/

theorem selectable_iff (n : ServerNode) :
    selectable n = true ↔
      (n.isHealthy = true ∧ n.activeConnections < n.maxConnections) := by
  simp [selectable]

theorem mem_of_head? {α : Type} (l : List α) (a : α) (h : l.head? = some a) :
    a ∈ l := by
  cases l with
  | nil => simp at h
  | cons x xs =>
    simp only [List.head?_cons, Option.some_inj] at h
    simp [h]

/-- The seedless `reduce` of least-connections stays inside the list. -/
theorem lcFold_mem (tl : List ServerNode) (hd : ServerNode) :
    tl.foldl
      (fun m n => if n.activeConnections < m.activeConnections then n else m)
      hd ∈ hd :: tl := by
  induction tl generalizing hd with
  | nil => simp
  | cons x xs ih =>
    simp only [List.foldl_cons]
    have step := ih (if x.activeConnections < hd.activeConnections then x else hd)
    rcases List.mem_cons.mp step with h | h
    · rw [h]
      by_cases hx : x.activeConnections < hd.activeConnections
      · simp [hx]
      · simp [hx]
    · exact List.mem_cons_of_mem _ (List.mem_cons_of_mem _ h)

/-- `refreshFirst` preserves the list of entry server ids. -/
theorem refreshFirst_ids (q : List WQEntry) (n : ServerNode) :
    (refreshFirst q n).map (fun e => e.server.id) =
      q.map (fun e => e.server.id) := by
  induction q with
  | nil => simp [refreshFirst]
  | cons e rest ih =>
    by_cases h : e.server.id = n.id
    · simp [refreshFirst, h]
    · simp [refreshFirst, h, ih]

/-- Entry-id uniqueness in a weighted queue. -/
def queueIdsNodup (q : List WQEntry) : Prop :=
  (q.map (fun e => e.server.id)).Nodup

/-- In an id-unique queue, every entry of `refreshFirst q n` is either the
refreshed entry (server `n`) or an untouched entry whose id differs from
`n.id`. -/
theorem mem_refreshFirst (q : List WQEntry) (n : ServerNode)
    (hnd : queueIdsNodup q) (e : WQEntry) (he : e ∈ refreshFirst q n) :
    e.server = n ∨ (e ∈ q ∧ e.server.id ≠ n.id) := by
  induction q with
  | nil => simp [refreshFirst] at he
  | cons e0 rest ih =>
    have hnd0 : queueIdsNodup rest := by
      have := (List.nodup_cons.mp hnd).2
      exact this
    by_cases h : e0.server.id = n.id
    · simp only [refreshFirst, h, if_true, List.mem_cons] at he
      rcases he with he | he
      · left
        simp [he]
      · right
        have hni : e0.server.id ∉ rest.map (fun e => e.server.id) :=
          (List.nodup_cons.mp hnd).1
        have : e.server.id ∈ rest.map (fun e => e.server.id) :=
          List.mem_map_of_mem _ he
        constructor
        · simp [he]
        · intro hcon
          rw [← h] at hcon
          rw [hcon] at this
          exact hni this
    · simp only [refreshFirst, h, if_false, List.mem_cons] at he
      rcases he with he | he
      · right
        exact ⟨by simp [he], by simp [he, h]⟩
      · rcases ih hnd0 he with h2 | h2
        · left; exact h2
        · right; exact ⟨List.mem_cons_of_mem _ h2.1, h2.2⟩

/-- `pushOrRefresh` preserves id-uniqueness. -/
theorem pushOrRefresh_nodup (q : List WQEntry) (n : ServerNode)
    (hnd : queueIdsNodup q) : queueIdsNodup (pushOrRefresh q n) := by
  unfold pushOrRefresh
  by_cases h : q.any (fun e => e.server.id == n.id) = true
  · simpa [h, queueIdsNodup, refreshFirst_ids] using hnd
  · simp only [h, if_false, Bool.false_eq_true]
    have hno : n.id ∉ q.map (fun e => e.server.id) := by
      intro hc
      rcases List.mem_map.mp hc with ⟨e, he, hid⟩
      have : q.any (fun e => e.server.id == n.id) = true :=
        List.any_eq_true.mpr ⟨e, he, by simp [hid]⟩
      exact h this
    unfold queueIdsNodup
    rw [List.map_append]
    simp only [List.map_cons, List.map_nil]
    rw [List.nodup_append]
    exact ⟨hnd, List.nodup_singleton _, by
      intro a ha hb
      simp only [List.mem_singleton] at hb
      rw [hb] at ha
      exact hno ha⟩

/-- Invariant carried through the add-or-refresh loop of
`updateWeightedQueue`: every accumulated entry either already holds a
server of `H` or will still be refreshed by a pending node of matching
id; id-uniqueness is preserved. -/
theorem foldl_pushOrRefresh_inv (H : List ServerNode) :
    ∀ (l : List ServerNode) (acc : List WQEntry), (∀ n ∈ l, n ∈ H) →
      queueIdsNodup acc →
      (∀ e ∈ acc, e.server ∈ H ∨ ∃ n ∈ l, n.id = e.server.id) →
      (∀ e ∈ l.foldl pushOrRefresh acc, e.server ∈ H) ∧
        queueIdsNodup (l.foldl pushOrRefresh acc) := by
  intro l
  induction l with
  | nil =>
    intro acc _ hnd hinv
    refine ⟨?_, hnd⟩
    intro e he
    rcases hinv e he with h | ⟨n, hn, _⟩
    · exact h
    · simp at hn
  | cons n0 ltl ih =>
    intro acc hsub hnd hinv
    simp only [List.foldl_cons]
    apply ih
    · intro n hn
      exact hsub n (List.mem_cons_of_mem _ hn)
    · exact pushOrRefresh_nodup acc n0 hnd
    · intro e he
      unfold pushOrRefresh at he
      by_cases hany : acc.any (fun e => e.server.id == n0.id) = true
      · rw [if_pos hany] at he
        rcases mem_refreshFirst acc n0 hnd e he with h | ⟨hmem, hne⟩
        · left
          rw [h]
          exact hsub n0 (List.mem_cons_self _ _)
        · rcases hinv e hmem with h | ⟨n, hn, hid⟩
          · left; exact h
          · rcases List.mem_cons.mp hn with hn0 | hn2
            · exact absurd (hn0 ▸ hid).symm hne
            · right; exact ⟨n, hn2, hid⟩
      · rw [if_neg hany] at he
        rcases List.mem_append.mp he with hmem | hnew
        · rcases hinv e hmem with h | ⟨n, hn, hid⟩
          · left; exact h
          · rcases List.mem_cons.mp hn with hn0 | hn2
            · exfalso
              apply hany
              refine List.any_eq_true.mpr ⟨e, hmem, ?_⟩
              simp [(hn0 ▸ hid).symm]
            · right; exact ⟨n, hn2, hid⟩
        · simp only [List.mem_singleton] at hnew
          left
          rw [hnew]
          exact hsub n0 (List.mem_cons_self _ _)

/-- After `updateWeightedQueue`, every entry's server belongs to the
supplied (already filtered) node list, and ids stay unique. -/
theorem update_inv (q : List WQEntry) (H : List ServerNode)
    (hnd : queueIdsNodup q) :
    (∀ e ∈ updateWeightedQueue q H, e.server ∈ H) ∧
      queueIdsNodup (updateWeightedQueue q H) := by
  unfold updateWeightedQueue
  apply foldl_pushOrRefresh_inv H H _ (fun n hn => hn)
  · unfold queueIdsNodup
    exact hnd.sublist (List.Sublist.map _ (List.filter_sublist q))
  · intro e he
    rw [List.mem_filter] at he
    rcases List.any_eq_true.mp he.2 with ⟨n, hn, hcond⟩
    simp only [Bool.and_eq_true, beq_iff_eq] at hcond
    right
    exact ⟨n, hn, hcond.1⟩

/-- A successful `find`-and-decrement returns the server of one of the
queue's entries and preserves the id sequence. -/
theorem pickFirstPos_some (q : List WQEntry) (s : ServerNode)
    (q2 : List WQEntry) (h : pickFirstPos q = some (s, q2)) :
    (∃ e ∈ q, e.server = s) ∧
      q2.map (fun e => e.server.id) = q.map (fun e => e.server.id) := by
  induction q generalizing q2 with
  | nil => simp [pickFirstPos] at h
  | cons e rest ih =>
    by_cases hw : e.remainingWeight > 0
    · simp only [pickFirstPos, hw, if_true, Option.some_inj, Prod.mk.injEq] at h
      obtain ⟨hs, hq⟩ := h
      refine ⟨⟨e, List.mem_cons_self _ _, hs⟩, ?_⟩
      rw [← hq]
      simp
    · simp only [pickFirstPos, hw, if_false] at h
      cases hrec : pickFirstPos rest with
      | none =>
        rw [hrec] at h
        simp at h
      | some pr =>
        obtain ⟨s0, rest2⟩ := pr
        rw [hrec] at h
        simp only [Option.some_inj, Prod.mk.injEq] at h
        obtain ⟨hs, hq⟩ := h
        obtain ⟨⟨e2, he2, hes⟩, hids⟩ := ih rest2 (by rw [hrec, hs])
        refine ⟨⟨e2, List.mem_cons_of_mem _ he2, hes⟩, ?_⟩
        rw [← hq]
        simp [hids]

/-- Full case analysis of one weighted-round-robin selection from an
id-unique queue: a returned server always comes from the filtered node
list, an empty filtered list yields `(none, q)`, and the output queue is
id-unique again. -/
theorem wrr_cases (q : List WQEntry) (nodes : List ServerNode)
    (hq : queueIdsNodup q) :
    (∀ s q2, wrrSelectServer q nodes = (some s, q2) →
      s ∈ nodes.filter selectable) ∧
    ((nodes.filter selectable).isEmpty = true →
      wrrSelectServer q nodes = (none, q)) ∧
    queueIdsNodup (wrrSelectServer q nodes).2 := by
  simp only [wrrSelectServer]
  by_cases hH : (nodes.filter selectable).isEmpty = true
  · rw [if_pos hH]
    exact ⟨fun s q2 heq => by simp at heq, fun _ => rfl, hq⟩
  · rw [if_neg hH]
    have hui := update_inv q (nodes.filter selectable) hq
    set q' := updateWeightedQueue q (nodes.filter selectable) with hdef
    by_cases hqe : q'.isEmpty = true
    · rw [if_pos hqe]
      exact ⟨fun s q2 heq => by simp at heq,
        fun hcon => absurd hcon hH, hui.2⟩
    · rw [if_neg hqe]
      cases hpick : pickFirstPos q' with
      | some pr =>
        obtain ⟨s0, qq⟩ := pr
        refine ⟨?_, fun hcon => absurd hcon hH, ?_⟩
        · intro s q2 heq
          simp only [Option.some_inj, Prod.mk.injEq] at heq
          obtain ⟨hs, _⟩ := heq
          obtain ⟨⟨e, he, hes⟩, _⟩ := pickFirstPos_some q' s0 qq hpick
          have := hui.1 e he
          rw [hes, hs] at this
          exact this
        · obtain ⟨_, hids⟩ := pickFirstPos_some q' s0 qq hpick
          unfold queueIdsNodup
          simp only
          rw [hids]
          exact hui.2
      | none =>
        cases hq2 : q' with
        | nil =>
          rw [hq2] at hqe
          simp at hqe
        | cons e0 rest0 =>
          simp only [List.map_cons]
          refine ⟨?_, fun hcon => absurd hcon hH, ?_⟩
          · intro s q2 heq
            simp only [Option.some_inj, Prod.mk.injEq] at heq
            have hs : e0.server = s := heq.1
            have he0 : e0 ∈ q' := by
              rw [hq2]
              exact List.mem_cons_self _ _
            have := hui.1 e0 he0
            rw [hs] at this
            exact this
          · have hndq : queueIdsNodup q' := hui.2
            rw [hq2] at hndq
            unfold queueIdsNodup at hndq ⊢
            simp only [List.map_cons, List.map_map] at hndq ⊢
            exact hndq

/-- C1: none of the four strategies ever returns an unhealthy or
at-capacity node, and each returns `none` (never raising) when no node is
selectable.  The weighted strategy is considered at any queue state with
unique entry ids — an invariant that holds for the initial empty queue
and is preserved by every selection call (final two conjuncts). -/
theorem c1_selectServer_safety (nodes : List ServerNode) (idx : ℕ)
    (q : List WQEntry) (hq : queueIdsNodup q) :
    (∀ s i2, rrSelectServer idx nodes = (some s, i2) →
      s.isHealthy = true ∧ s.activeConnections < s.maxConnections) ∧
    ((∀ n ∈ nodes, ¬ (n.isHealthy = true ∧
        n.activeConnections < n.maxConnections)) →
      (rrSelectServer idx nodes).1 = none) ∧
    (∀ s, lcSelectServer nodes = some s →
      s.isHealthy = true ∧ s.activeConnections < s.maxConnections) ∧
    ((∀ n ∈ nodes, ¬ (n.isHealthy = true ∧
        n.activeConnections < n.maxConnections)) →
      lcSelectServer nodes = none) ∧
    (∀ s, pbSelectServer nodes = some s →
      s.isHealthy = true ∧ s.activeConnections < s.maxConnections) ∧
    ((∀ n ∈ nodes, ¬ (n.isHealthy = true ∧
        n.activeConnections < n.maxConnections)) →
      pbSelectServer nodes = none) ∧
    (∀ s q2, wrrSelectServer q nodes = (some s, q2) →
      s.isHealthy = true ∧ s.activeConnections < s.maxConnections) ∧
    ((∀ n ∈ nodes, ¬ (n.isHealthy = true ∧
        n.activeConnections < n.maxConnections)) →
      (wrrSelectServer q nodes).1 = none) ∧
    queueIdsNodup ([] : List WQEntry) ∧
    queueIdsNodup (wrrSelectServer q nodes).2 := by
  have hfilter : ∀ n, n ∈ nodes.filter selectable →
      n.isHealthy = true ∧ n.activeConnections < n.maxConnections :=
    fun n hn => (selectable_iff n).mp (List.mem_filter.mp hn).2
  have hempty : (∀ n ∈ nodes, ¬ (n.isHealthy = true ∧
      n.activeConnections < n.maxConnections)) →
      nodes.filter selectable = [] := by
    intro hng
    refine List.filter_eq_nil_iff.mpr ?_
    intro n hn
    rw [Bool.not_eq_true]
    rw [← Bool.not_eq_true (selectable n)]
    intro hc
    exact hng n hn ((selectable_iff n).mp hc)
  obtain ⟨hwA, hwB, hwC⟩ := wrr_cases q nodes hq
  refine ⟨?_, ?_, ?_, ?_, ?_, ?_, ?_, ?_, by simp [queueIdsNodup], hwC⟩
  · intro s i2 heq
    unfold rrSelectServer at heq
    by_cases h0 : (nodes.filter selectable).length = 0
    · rw [dif_pos h0] at heq
      simp at heq
    · rw [dif_neg h0] at heq
      simp only [Prod.mk.injEq, Option.some_inj] at heq
      obtain ⟨hs, _⟩ := heq
      exact hfilter s (hs ▸ List.get_mem _ _ _)
  · intro hng
    have h := hempty hng
    simp [rrSelectServer, h]
  · intro s heq
    simp only [lcSelectServer] at heq
    cases hav : nodes.filter selectable with
    | nil => rw [hav] at heq; simp at heq
    | cons hd tl =>
      rw [hav] at heq
      simp only [Option.some_inj] at heq
      have hm := lcFold_mem tl hd
      rw [heq] at hm
      exact hfilter s (hav ▸ hm)
  · intro hng
    have h := hempty hng
    simp [lcSelectServer, h]
  · intro s heq
    simp only [pbSelectServer] at heq
    cases hav : nodes.filter selectable with
    | nil => rw [hav] at heq; simp at heq
    | cons hd tl =>
      rw [hav] at heq
      have hmem := mem_of_head? _ _ heq
      have hperm := List.mergeSort_perm (hd :: tl)
        (fun a b => calculatePerformanceScore a ≤ calculatePerformanceScore b)
      have : s ∈ hd :: tl := hperm.mem_iff.mp hmem
      exact hfilter s (hav ▸ this)
  · intro hng
    have h := hempty hng
    simp [pbSelectServer, h]
  · intro s q2 heq
    exact hfilter s (hwA s q2 heq)
  · intro hng
    have h := hempty hng
    rw [hwB (by simp [h])]

/-- C1 witness: at a concrete two-node list (one healthy below capacity,
one unhealthy) every strategy picks the healthy node, and at an
all-unhealthy list every strategy returns none. -/
theorem c1_selectServer_safety_witness :
    ((mkNode "A" true 0 10 1).isHealthy = true ∧
      (mkNode "A" true 0 10 1).activeConnections <
        (mkNode "A" true 0 10 1).maxConnections) ∧
    (rrSelectServer 0 [mkNode "B" false 0 10 1]).1 = none ∧
    lcSelectServer [mkNode "B" false 0 10 1] = none ∧
    pbSelectServer [mkNode "B" false 0 10 1] = none ∧
    (wrrSelectServer [] [mkNode "B" false 0 10 1]).1 = none ∧
    queueIdsNodup (wrrSelectServer []
      [mkNode "A" true 0 10 1, mkNode "B" false 0 10 1]).2 := by
  have hA := c1_selectServer_safety
    [mkNode "A" true 0 10 1, mkNode "B" false 0 10 1] 0 []
    (by simp [queueIdsNodup])
  have hB := c1_selectServer_safety [mkNode "B" false 0 10 1] 0 []
    (by simp [queueIdsNodup])
  have hng : ∀ n ∈ [mkNode "B" false 0 10 1],
      ¬ (n.isHealthy = true ∧ n.activeConnections < n.maxConnections) := by
    intro n hn
    simp only [List.mem_singleton] at hn
    rw [hn]
    decide
  refine ⟨?_, hB.2.1 hng, hB.2.2.2.1 hng, hB.2.2.2.2.2.1 hng,
    hB.2.2.2.2.2.2.2.1 hng, hA.2.2.2.2.2.2.2.2.2⟩
  exact hA.1 (mkNode "A" true 0 10 1) 0 (by decide)

/-! ## Claim C6: weighted-round-robin cycle counting -/

/-- The weighted queue whose entries pair `ns` with the remaining weights
`rws`, positionally. -/
def mkQueue (ns : List ServerNode) (rws : List ℤ) : List WQEntry :=
  List.zipWith (fun n r => ⟨n, r⟩) ns rws

/-- ℕ-valued remaining weights, cast into the queue's ℤ field. -/
def intList (rws : List ℕ) : List ℤ := rws.map (Nat.cast : ℕ → ℤ)

/-- The configured weights of the nodes, as naturals (all weights are
at least 1 in the claim's scope). -/
def natWeights (ns : List ServerNode) : List ℕ :=
  ns.map (fun n => n.weight.toNat)

/-- Sum of all weights: the cycle length of the claim. -/
def wsum (ns : List ServerNode) : ℕ := (natWeights ns).sum

theorem mkQueue_cons (n : ServerNode) (ns : List ServerNode) (r : ℤ)
    (rs : List ℤ) : mkQueue (n :: ns) (r :: rs) = ⟨n, r⟩ :: mkQueue ns rs :=
  rfl

theorem mkQueue_length (ns : List ServerNode) (rws : List ℤ) :
    (mkQueue ns rws).length = min ns.length rws.length := by
  simp [mkQueue]

theorem mkQueue_mem_server (ns : List ServerNode) (rws : List ℤ)
    (e : WQEntry) (he : e ∈ mkQueue ns rws) : e.server ∈ ns := by
  induction ns generalizing rws with
  | nil => simp [mkQueue] at he
  | cons n ns ih =>
    cases rws with
    | nil => simp [mkQueue] at he
    | cons r rs =>
      rw [mkQueue_cons] at he
      rcases List.mem_cons.mp he with h | h
      · simp [h]
      · exact List.mem_cons_of_mem _ (ih rs h)

theorem mkQueue_mem_rw (ns : List ServerNode) (rws : List ℤ)
    (e : WQEntry) (he : e ∈ mkQueue ns rws) : e.remainingWeight ∈ rws := by
  induction ns generalizing rws with
  | nil => simp [mkQueue] at he
  | cons n ns ih =>
    cases rws with
    | nil => simp [mkQueue] at he
    | cons r rs =>
      rw [mkQueue_cons] at he
      rcases List.mem_cons.mp he with h | h
      · simp [h]
      · exact List.mem_cons_of_mem _ (ih rs h)

theorem mkQueue_exists (ns : List ServerNode) (rws : List ℤ)
    (hlen : rws.length = ns.length) (n : ServerNode) (hn : n ∈ ns) :
    ∃ e ∈ mkQueue ns rws, e.server = n := by
  induction ns generalizing rws with
  | nil => simp at hn
  | cons n0 ns ih =>
    cases rws with
    | nil => simp at hlen
    | cons r rs =>
      rw [mkQueue_cons]
      rcases List.mem_cons.mp hn with h | h
      · exact ⟨⟨n0, r⟩, List.mem_cons_self _ _, h.symm⟩
      · obtain ⟨e, he, hes⟩ := ih rs (by simpa using hlen) h
        exact ⟨e, List.mem_cons_of_mem _ he, hes⟩

theorem mkQueue_map_reset (ns : List ServerNode) (rws : List ℤ)
    (hlen : rws.length = ns.length) :
    (mkQueue ns rws).map
        (fun e => { e with remainingWeight := e.server.weight }) =
      mkQueue ns (ns.map ServerNode.weight) := by
  induction ns generalizing rws with
  | nil => simp [mkQueue]
  | cons n0 ns ih =>
    cases rws with
    | nil => simp at hlen
    | cons r rs =>
      rw [mkQueue_cons]
      simp only [List.map_cons, List.map_cons, mkQueue_cons]
      rw [ih rs (by simpa using hlen)]

theorem foldl_const {α β : Type} (f : β → α → β) (b : β) (l : List α)
    (h : ∀ a ∈ l, f b a = b) : l.foldl f b = b := by
  induction l with
  | nil => rfl
  | cons a tl ih =>
    simp only [List.foldl_cons]
    rw [h a (List.mem_cons_self _ _)]
    exact ih (fun x hx => h x (List.mem_cons_of_mem _ hx))

theorem refreshFirst_self (q : List WQEntry) (n : ServerNode)
    (h : ∀ e ∈ q, e.server.id = n.id → e.server = n) : refreshFirst q n = q := by
  induction q with
  | nil => rfl
  | cons e rest ih =>
    by_cases hid : e.server.id = n.id
    · have he : e.server = n := h e (List.mem_cons_self _ _) hid
      simp only [refreshFirst, hid, if_true]
      rw [← he]
    · simp only [refreshFirst, hid, if_false]
      rw [ih (fun x hx hxid => h x (List.mem_cons_of_mem _ hx) hxid)]

/-- `updateWeightedQueue` leaves a positionally matching queue unchanged
when every node is selectable and ids are unique. -/
theorem update_id (ns : List ServerNode) (rws : List ℤ)
    (hlen : rws.length = ns.length) (hsel : ∀ n ∈ ns, selectable n = true)
    (hnd : (ns.map ServerNode.id).Nodup) :
    updateWeightedQueue (mkQueue ns rws) ns = mkQueue ns rws := by
  have hinj : ∀ a ∈ ns, ∀ b ∈ ns, a.id = b.id → a = b := by
    intro a ha b hb hab
    exact List.inj_on_of_nodup_map hnd ha hb hab
  unfold updateWeightedQueue
  have hfil : (mkQueue ns rws).filter
      (fun e => ns.any (fun n => n.id == e.server.id && selectable n)) =
      mkQueue ns rws := by
    refine List.filter_eq_self.mpr ?_
    intro e he
    refine List.any_eq_true.mpr ⟨e.server, mkQueue_mem_server ns rws e he, ?_⟩
    simp [hsel e.server (mkQueue_mem_server ns rws e he)]
  rw [hfil]
  refine foldl_const _ _ _ ?_
  intro n hn
  obtain ⟨e0, he0, he0s⟩ := mkQueue_exists ns rws hlen n hn
  unfold pushOrRefresh
  have hany : (mkQueue ns rws).any (fun e => e.server.id == n.id) = true :=
    List.any_eq_true.mpr ⟨e0, he0, by simp [he0s]⟩
  rw [if_pos hany]
  refine refreshFirst_self _ _ ?_
  intro e he hid
  exact hinj e.server (mkQueue_mem_server ns rws e he) n hn hid

theorem mkQueue_self (ns : List ServerNode) :
    ns.map (fun n => (⟨n, n.weight⟩ : WQEntry)) =
      mkQueue ns (ns.map ServerNode.weight) := by
  induction ns with
  | nil => rfl
  | cons n ns ih => simp only [List.map_cons, mkQueue_cons, ih]

/-- Folding the add-or-refresh loop over nodes disjoint from the
accumulator appends one fresh entry per node. -/
theorem foldl_push_all (l : List ServerNode) : ∀ acc : List WQEntry,
    (∀ n ∈ l, ∀ e ∈ acc, e.server.id ≠ n.id) → (l.map ServerNode.id).Nodup →
    l.foldl pushOrRefresh acc =
      acc ++ l.map (fun n => (⟨n, n.weight⟩ : WQEntry)) := by
  induction l with
  | nil => intro acc _ _; simp
  | cons n0 tl ih =>
    intro acc hdisj hnd
    simp only [List.foldl_cons]
    have hany : ¬ (acc.any (fun e => e.server.id == n0.id) = true) := by
      intro h
      rcases List.any_eq_true.mp h with ⟨e, he, heq⟩
      exact hdisj n0 (List.mem_cons_self _ _) e he (by simpa using heq)
    have hpush : pushOrRefresh acc n0 =
        acc ++ [(⟨n0, n0.weight⟩ : WQEntry)] := by
      unfold pushOrRefresh
      rw [if_neg hany]
    rw [hpush]
    have hnd2 : (tl.map ServerNode.id).Nodup := (List.nodup_cons.mp hnd).2
    have hhead : n0.id ∉ tl.map ServerNode.id := (List.nodup_cons.mp hnd).1
    rw [ih (acc ++ [(⟨n0, n0.weight⟩ : WQEntry)]) ?disj hnd2]
    · simp
    case disj =>
      intro n hn e he
      rcases List.mem_append.mp he with h | h
      · exact hdisj n (List.mem_cons_of_mem _ hn) e h
      · simp only [List.mem_singleton] at h
        rw [h]
        intro hcon
        exact hhead (hcon ▸ List.mem_map_of_mem ServerNode.id hn)

/-- The first selection builds the queue: one entry per node, remaining
weight initialised to the node's weight. -/
theorem build_queue (ns : List ServerNode)
    (hnd : (ns.map ServerNode.id).Nodup) :
    updateWeightedQueue [] ns = mkQueue ns (ns.map ServerNode.weight) := by
  unfold updateWeightedQueue
  simp only [List.filter_nil]
  rw [foldl_push_all ns [] (by intro n _ e he; simp at he) hnd]
  simp [mkQueue_self]

theorem pick_none (q : List WQEntry)
    (h : ∀ e ∈ q, ¬ (e.remainingWeight > 0)) : pickFirstPos q = none := by
  induction q with
  | nil => rfl
  | cons e rest ih =>
    simp only [pickFirstPos, h e (List.mem_cons_self _ _), if_false]
    rw [ih (fun x hx => h x (List.mem_cons_of_mem _ hx))]

/-- `find`-and-decrement on a positional queue whose remaining weights are
`i` zeros followed by a positive weight `r`. -/
theorem pick_mkQueue (i : ℕ) : ∀ (ns : List ServerNode) (r : ℤ)
    (tail : List ℤ), 0 < r →
    (List.replicate i (0:ℤ) ++ r :: tail).length = ns.length →
    ∀ hi : i < ns.length,
    pickFirstPos (mkQueue ns (List.replicate i 0 ++ r :: tail)) =
      some (ns.get ⟨i, hi⟩,
        mkQueue ns (List.replicate i 0 ++ (r - 1) :: tail)) := by
  induction i with
  | zero =>
    intro ns r tail hr hlen hi
    cases ns with
    | nil => simp at hi
    | cons n0 ns2 =>
      simp only [List.replicate_zero, List.nil_append, mkQueue_cons]
      simp [pickFirstPos, hr]
  | succ i ih =>
    intro ns r tail hr hlen hi
    cases ns with
    | nil => simp at hi
    | cons n0 ns2 =>
      have hlen2 : (List.replicate i (0:ℤ) ++ r :: tail).length = ns2.length := by
        simp only [List.length_append, List.length_replicate,
          List.length_cons] at hlen ⊢
        omega
      have hi2 : i < ns2.length := by
        simp only [List.length_cons] at hi
        omega
      have hrec := ih ns2 r tail hr hlen2 hi2
      simp only [List.replicate_succ, List.cons_append, mkQueue_cons]
      simp only [pickFirstPos, gt_iff_lt, lt_self_iff_false, if_false]
      rw [hrec]
      rfl

/-- One weighted selection from the positional state whose remaining
weights are `i` zeros, a positive `r`, then `tail`: the node at position
`i` is selected and its remaining weight decremented. -/
theorem wrr_step_pos (ns : List ServerNode)
    (hsel : ∀ n ∈ ns, selectable n = true)
    (hnd : (ns.map ServerNode.id).Nodup) (i : ℕ) (r : ℤ) (tail : List ℤ)
    (hr : 0 < r)
    (hlen : (List.replicate i (0:ℤ) ++ r :: tail).length = ns.length)
    (hi : i < ns.length) :
    wrrSelectServer (mkQueue ns (List.replicate i 0 ++ r :: tail)) ns =
      (some (ns.get ⟨i, hi⟩),
       mkQueue ns (List.replicate i 0 ++ (r - 1) :: tail)) := by
  have hfil : ns.filter selectable = ns := List.filter_eq_self.mpr hsel
  have hne : ns ≠ [] := by
    intro hcon
    rw [hcon] at hi
    simp at hi
  simp only [wrrSelectServer, hfil]
  rw [if_neg (by simpa [List.isEmpty_iff] using hne)]
  rw [update_id ns _ hlen hsel hnd]
  rw [if_neg ?qne]
  · rw [pick_mkQueue i ns r tail hr hlen hi]
  case qne =>
    simp only [List.isEmpty_iff]
    intro hcon
    have := congrArg List.length hcon
    rw [mkQueue_length, hlen] at this
    simp at this
    rw [this] at hi
    simp at hi

/-- A selection from the all-zero positional state coincides with a
selection from the freshly reset full-weight state (reset picks the first
entry, which the full state also selects since its weight is ≥ 1). -/
theorem wrr_step_zero (ns : List ServerNode)
    (hsel : ∀ n ∈ ns, selectable n = true) (hw : ∀ n ∈ ns, 1 ≤ n.weight)
    (hnd : (ns.map ServerNode.id).Nodup) (hne : ns ≠ []) :
    wrrSelectServer (mkQueue ns (List.replicate ns.length 0)) ns =
      wrrSelectServer (mkQueue ns (ns.map ServerNode.weight)) ns := by
  have hfil : ns.filter selectable = ns := List.filter_eq_self.mpr hsel
  cases ns with
  | nil => simp at hne
  | cons n0 ns2 =>
    have hw0 : 1 ≤ n0.weight := hw n0 (List.mem_cons_self _ _)
    have hlen0 : (List.replicate (n0 :: ns2).length (0:ℤ)).length =
        (n0 :: ns2).length := by simp
    have hlenw : ((n0 :: ns2).map ServerNode.weight).length =
        (n0 :: ns2).length := by simp
    -- right-hand side: the full queue has positive head weight
    have hrhs : wrrSelectServer
        (mkQueue (n0 :: ns2) ((n0 :: ns2).map ServerNode.weight))
        (n0 :: ns2) =
        (some n0,
         mkQueue (n0 :: ns2) ((n0.weight - 1) :: ns2.map ServerNode.weight)) := by
      have := wrr_step_pos (n0 :: ns2) hsel hnd 0 n0.weight
        (ns2.map ServerNode.weight) (by omega) (by simp) (by simp)
      simpa using this
    rw [hrhs]
    -- left-hand side: all weights zero, so find fails and reset fires
    simp only [wrrSelectServer, hfil]
    rw [if_neg (by simp [List.isEmpty_iff])]
    rw [update_id (n0 :: ns2) _ hlen0 hsel hnd]
    rw [if_neg ?zne]
    · rw [pick_none _ ?allz]
      · rw [mkQueue_map_reset _ _ hlen0]
        simp only [List.map_cons, mkQueue_cons]
      case allz =>
        intro e he
        have := mkQueue_mem_rw _ _ e he
        rcases List.eq_of_mem_replicate this with h
        omega
    case zne =>
      simp only [List.isEmpty_iff]
      intro hcon
      have := congrArg List.length hcon
      rw [mkQueue_length] at this
      simp at this

/-- The very first selection (empty private queue) coincides with a
selection from the full-weight positional state. -/
theorem wrr_step_nil (ns : List ServerNode)
    (hsel : ∀ n ∈ ns, selectable n = true) (hw : ∀ n ∈ ns, 1 ≤ n.weight)
    (hnd : (ns.map ServerNode.id).Nodup) (hne : ns ≠ []) :
    wrrSelectServer [] ns =
      wrrSelectServer (mkQueue ns (ns.map ServerNode.weight)) ns := by
  have hfil : ns.filter selectable = ns := List.filter_eq_self.mpr hsel
  cases ns with
  | nil => simp at hne
  | cons n0 ns2 =>
    have hw0 : 1 ≤ n0.weight := hw n0 (List.mem_cons_self _ _)
    have hpick : pickFirstPos
        (mkQueue (n0 :: ns2) ((n0 :: ns2).map ServerNode.weight)) =
        some (n0, mkQueue (n0 :: ns2)
          ((n0.weight - 1) :: ns2.map ServerNode.weight)) := by
      have := pick_mkQueue 0 (n0 :: ns2) n0.weight (ns2.map ServerNode.weight)
        (by omega) (by simp) (by simp)
      simpa using this
    have hrhs : wrrSelectServer
        (mkQueue (n0 :: ns2) ((n0 :: ns2).map ServerNode.weight))
        (n0 :: ns2) =
        (some n0, mkQueue (n0 :: ns2)
          ((n0.weight - 1) :: ns2.map ServerNode.weight)) := by
      have := wrr_step_pos (n0 :: ns2) hsel hnd 0 n0.weight
        (ns2.map ServerNode.weight) (by omega) (by simp) (by simp)
      simpa using this
    rw [hrhs]
    simp only [wrrSelectServer, hfil]
    rw [if_neg (by simp [List.isEmpty_iff])]
    rw [build_queue (n0 :: ns2) hnd]
    rw [if_neg ?bne]
    · rw [hpick]
    case bne =>
      simp only [List.isEmpty_iff]
      intro hcon
      have := congrArg List.length hcon
      rw [mkQueue_length] at this
      simp at this

theorem wrrRun_congr_first (q1 q2 : List WQEntry) (ns : List ServerNode)
    (m : ℕ) (h : wrrSelectServer q1 ns = wrrSelectServer q2 ns) :
    wrrRun q1 ns (m + 1) = wrrRun q2 ns (m + 1) := by
  simp only [wrrRun]
  rw [h]

theorem wrrRun_add (q : List WQEntry) (ns : List ServerNode) (a b : ℕ) :
    wrrRun q ns (a + b) =
      ((wrrRun q ns a).1 ++ (wrrRun (wrrRun q ns a).2 ns b).1,
       (wrrRun (wrrRun q ns a).2 ns b).2) := by
  induction a generalizing q with
  | zero => simp [wrrRun]
  | succ a ih =>
    have hn : a + 1 + b = (a + b) + 1 := by omega
    rw [hn]
    simp only [wrrRun]
    rw [ih ((wrrSelectServer q ns).2)]
    cases (wrrSelectServer q ns).1 <;> simp

/-- A nonzero-sum weight vector decomposes as zeros, a first positive
entry, and a tail. -/
theorem exists_first_pos (rws : List ℕ) (h : rws.sum ≠ 0) :
    ∃ i r tail, rws = List.replicate i 0 ++ (r :: tail) ∧ 0 < r := by
  induction rws with
  | nil => simp at h
  | cons r0 tl ih =>
    by_cases h0 : r0 = 0
    · have htl : tl.sum ≠ 0 := by
        simp [h0] at h
        simpa using h
      obtain ⟨i, r, tail, heq, hr⟩ := ih htl
      exact ⟨i + 1, r, tail, by simp [h0, List.replicate_succ, heq], hr⟩
    · exact ⟨0, r0, tl, by simp, Nat.pos_of_ne_zero h0⟩

theorem intList_decomp (i : ℕ) (r : ℕ) (tail : List ℕ) :
    intList (List.replicate i 0 ++ r :: tail) =
      List.replicate i (0:ℤ) ++ (r : ℤ) :: intList tail := by
  simp only [intList, List.map_append, List.map_replicate, List.map_cons,
    Nat.cast_zero]

theorem intList_length (rws : List ℕ) : (intList rws).length = rws.length := by
  simp only [intList, List.length_map]

/-- Positions other than `i` read the same in the two weight vectors that
differ only at position `i`. -/
theorem getD_ne (i j r r2 : ℕ) (tail : List ℕ) (hij : j ≠ i) :
    (List.replicate i 0 ++ r :: tail).getD j 0 =
      (List.replicate i 0 ++ r2 :: tail).getD j 0 := by
  rw [List.getD_eq_getElem?_getD, List.getD_eq_getElem?_getD]
  rw [List.getElem?_append, List.getElem?_append]
  simp only [List.length_replicate]
  by_cases hj : j < i
  · rw [if_pos hj, if_pos hj]
  · rw [if_neg hj, if_neg hj]
    cases hc : j - i with
    | zero => omega
    | succ k => simp [hc, List.getElem?_cons_succ]

theorem getD_at (i r : ℕ) (tail : List ℕ) :
    (List.replicate i 0 ++ r :: tail).getD i 0 = r := by
  rw [List.getD_eq_getElem?_getD,
    List.getElem?_append_right
      (by simp : (List.replicate i (0:ℕ)).length ≤ i)]
  simp

/-- Distinct positions of a list with unique ids hold distinct nodes. -/
theorem get_ne_of_nodup_ids (ns : List ServerNode)
    (hnd : (ns.map ServerNode.id).Nodup) (i j : ℕ) (hi : i < ns.length)
    (hj : j < ns.length) (hij : i ≠ j) :
    ns.get ⟨i, hi⟩ ≠ ns.get ⟨j, hj⟩ := by
  intro hcon
  have hns : ns.Nodup := List.Nodup.of_map _ hnd
  have := (hns.get_inj_iff).mp hcon
  simp only [Fin.mk.injEq] at this
  exact hij this

/-- Core cycle lemma: from the positional state holding the ℕ weight
vector `rws`, running `rws.sum` selections drains the weights to zero
(never resetting), produces one selection per step, and selects the node
at position `j` exactly `rws[j]` times. -/
theorem wrr_cycle_core (ns : List ServerNode)
    (hsel : ∀ n ∈ ns, selectable n = true)
    (hnd : (ns.map ServerNode.id).Nodup) :
    ∀ (S : ℕ) (rws : List ℕ), rws.sum = S → rws.length = ns.length →
      (wrrRun (mkQueue ns (intList rws)) ns S).2 =
        mkQueue ns (List.replicate ns.length 0) ∧
      (wrrRun (mkQueue ns (intList rws)) ns S).1.length = S ∧
      (∀ j, ∀ hj : j < ns.length,
        (wrrRun (mkQueue ns (intList rws)) ns S).1.count (ns.get ⟨j, hj⟩) =
          rws.getD j 0) := by
  intro S
  induction S with
  | zero =>
    intro rws hsum hlen
    have hz : rws = List.replicate ns.length 0 := by
      rw [List.eq_replicate_iff]
      exact ⟨hlen, List.sum_eq_zero_iff.mp hsum⟩
    refine ⟨?_, rfl, ?_⟩
    · simp only [wrrRun]
      rw [hz]
      simp [intList, List.map_replicate]
    · intro j hj
      simp only [wrrRun, List.count_nil]
      rw [hz]
      simp [List.getD_eq_getElem?_getD, List.getElem?_replicate, hj]
  | succ S ih =>
    intro rws hsum hlen
    have hnz : rws.sum ≠ 0 := by omega
    obtain ⟨i, r, tail, hdec, hr⟩ := exists_first_pos rws hnz
    have hleni : i + (tail.length + 1) = ns.length := by
      rw [hdec] at hlen
      simpa [List.length_append] using hlen
    have hi : i < ns.length := by omega
    have hlenz : (List.replicate i (0:ℤ) ++ (r:ℤ) :: intList tail).length =
        ns.length := by
      simp only [List.length_append, List.length_replicate, List.length_cons,
        intList_length]
      omega
    have hstep := wrr_step_pos ns hsel hnd i (r:ℤ) (intList tail)
      (by exact_mod_cast hr) hlenz hi
    have hcast : (List.replicate i (0:ℤ) ++ ((r:ℤ) - 1) :: intList tail) =
        intList (List.replicate i 0 ++ (r - 1) :: tail) := by
      rw [intList_decomp]
      have : ((r - 1 : ℕ) : ℤ) = (r : ℤ) - 1 := by
        have : 1 ≤ r := hr
        push_cast [this]
        ring
      rw [this]
    have hsum2 : (List.replicate i 0 ++ (r - 1) :: tail).sum = S := by
      rw [hdec] at hsum
      simp only [List.sum_append, List.sum_replicate, List.sum_cons,
        smul_eq_mul, Nat.mul_zero, Nat.zero_add] at hsum ⊢
      omega
    have hlen2 : (List.replicate i 0 ++ (r - 1) :: tail).length = ns.length := by
      simp only [List.length_append, List.length_replicate, List.length_cons]
      omega
    obtain ⟨ihs, ihl, ihc⟩ := ih (List.replicate i 0 ++ (r - 1) :: tail)
      hsum2 hlen2
    rw [hdec, intList_decomp]
    simp only [wrrRun]
    rw [hstep]
    simp only
    rw [hcast]
    refine ⟨ihs, by simp [ihl], ?_⟩
    intro j hj
    rw [List.count_cons]
    by_cases hij : j = i
    · subst hij
      rw [ihc j hj]
      have hbeq : (ns.get ⟨j, hi⟩ == ns.get ⟨j, hj⟩) = true := by
        simp
      rw [hbeq, if_pos rfl]
      rw [getD_at, getD_at]
      omega
    · have hne : ns.get ⟨i, hi⟩ ≠ ns.get ⟨j, hj⟩ :=
        get_ne_of_nodup_ids ns hnd i j hi hj (fun hcon => hij hcon.symm)
      have hbeq : (ns.get ⟨i, hi⟩ == ns.get ⟨j, hj⟩) = false := by
        simpa using hne
      rw [hbeq]
      simp only [if_false, Bool.false_eq_true, Nat.add_zero]
      rw [ihc j hj]
      exact getD_ne i j (r - 1) r tail hij

theorem intList_natWeights (ns : List ServerNode)
    (hw : ∀ n ∈ ns, 1 ≤ n.weight) :
    intList (natWeights ns) = ns.map ServerNode.weight := by
  unfold intList natWeights
  rw [List.map_map]
  apply List.map_congr_left
  intro n hn
  simp only [Function.comp_apply]
  exact Int.toNat_of_nonneg (by linarith [hw n hn])

/-- Every aligned cycle of `wsum ns` consecutive calls (starting from the
strategy's initial empty queue) drains the queue to zero and selects the
node at position `j` exactly `natWeights[j]` times. -/
theorem wrr_cycles (ns : List ServerNode)
    (hsel : ∀ n ∈ ns, selectable n = true) (hw : ∀ n ∈ ns, 1 ≤ n.weight)
    (hnd : (ns.map ServerNode.id).Nodup) (hne : ns ≠ []) :
    ∀ k : ℕ,
      (wrrRun [] ns ((k + 1) * wsum ns)).2 =
        mkQueue ns (List.replicate ns.length 0) ∧
      (wrrRun [] ns ((k + 1) * wsum ns)).1.length = (k + 1) * wsum ns ∧
      (∀ j, ∀ hj : j < ns.length,
        ((wrrRun [] ns ((k + 1) * wsum ns)).1.drop (k * wsum ns)).count
            (ns.get ⟨j, hj⟩) = (natWeights ns).getD j 0) := by
  have hlenW : (natWeights ns).length = ns.length := by simp [natWeights]
  have hfullq : mkQueue ns (intList (natWeights ns)) =
      mkQueue ns (ns.map ServerNode.weight) := by
    rw [intList_natWeights ns hw]
  obtain ⟨hcs, hcl, hcc⟩ := wrr_cycle_core ns hsel hnd (wsum ns)
    (natWeights ns) rfl hlenW
  have hW : 1 ≤ wsum ns := by
    cases ns with
    | nil => exact absurd rfl hne
    | cons n0 ns2 =>
      have h1 : 1 ≤ n0.weight.toNat := by
        have := hw n0 (List.mem_cons_self _ _)
        omega
      unfold wsum natWeights
      simp only [List.map_cons, List.sum_cons]
      omega
  obtain ⟨W2, hW2⟩ : ∃ W2, wsum ns = W2 + 1 := ⟨wsum ns - 1, by omega⟩
  have hnil : wrrRun [] ns (wsum ns) =
      wrrRun (mkQueue ns (intList (natWeights ns))) ns (wsum ns) := by
    rw [hW2]
    apply wrrRun_congr_first
    rw [hfullq]
    exact wrr_step_nil ns hsel hw hnd hne
  have hzero : wrrRun (mkQueue ns (List.replicate ns.length 0)) ns (wsum ns) =
      wrrRun (mkQueue ns (intList (natWeights ns))) ns (wsum ns) := by
    rw [hW2]
    apply wrrRun_congr_first
    rw [hfullq]
    exact wrr_step_zero ns hsel hw hnd hne
  intro k
  induction k with
  | zero =>
    refine ⟨?_, ?_, ?_⟩
    · rw [Nat.one_mul, hnil]
      exact hcs
    · rw [Nat.one_mul, hnil]
      exact hcl
    · intro j hj
      rw [Nat.one_mul, Nat.zero_mul, List.drop_zero, hnil]
      exact hcc j hj
  | succ k ihk =>
    obtain ⟨ihs, ihl, _⟩ := ihk
    have hsplit : (k + 1 + 1) * wsum ns = (k + 1) * wsum ns + wsum ns := by
      ring
    refine ⟨?_, ?_, ?_⟩
    · rw [hsplit, wrrRun_add]
      simp only
      rw [ihs, hzero]
      exact hcs
    · rw [hsplit, wrrRun_add]
      simp only [List.length_append]
      rw [ihl, ihs, hzero, hcl]
    · intro j hj
      rw [hsplit, wrrRun_add]
      simp only
      rw [List.drop_left' ihl]
      rw [ihs, hzero]
      exact hcc j hj

/-- C6 counterexample: with a weight-0 node first, the second full cycle
(one call, since the weight sum is 1) selects the weight-0 node once via
the reset-and-take-first branch, not zero times. -/
theorem c6_counterexample :
    ((wrrRun [] [mkNode "A" true 0 10 0, mkNode "B" true 0 10 1]
        ((1 + 1) * wsum [mkNode "A" true 0 10 0, mkNode "B" true 0 10 1])).1.drop
          (1 * wsum [mkNode "A" true 0 10 0, mkNode "B" true 0 10 1])).count
        (mkNode "A" true 0 10 0) = 1 ∧
    (mkNode "A" true 0 10 0).weight = 0 ∧ (1 : ℕ) ≠ 0 := by
  decide

/-- C6 (amended): under a static node set with distinct ids in which every
node is healthy, below capacity and has weight ≥ 1, the weighted
round-robin strategy (started from its initial empty queue) selects each
node exactly `weight` times in every aligned cycle of sum-of-all-weights
consecutive calls. -/
theorem c6_amended (ns : List ServerNode)
    (hsel : ∀ n ∈ ns, n.isHealthy = true ∧
      n.activeConnections < n.maxConnections)
    (hw : ∀ n ∈ ns, 1 ≤ n.weight)
    (hnd : (ns.map ServerNode.id).Nodup)
    (k j : ℕ) (hj : j < ns.length) :
    (((wrrRun [] ns ((k + 1) * wsum ns)).1.drop (k * wsum ns)).count
        (ns.get ⟨j, hj⟩) : ℤ) = (ns.get ⟨j, hj⟩).weight := by
  have hsel2 : ∀ n ∈ ns, selectable n = true :=
    fun n hn => (selectable_iff n).mpr (hsel n hn)
  have hne : ns ≠ [] := by
    intro h
    rw [h] at hj
    simp at hj
  have h := (wrr_cycles ns hsel2 hw hnd hne k).2.2 j hj
  rw [h]
  have hg : (natWeights ns).getD j 0 = (ns.get ⟨j, hj⟩).weight.toNat := by
    unfold natWeights
    rw [List.getD_eq_getElem?_getD, List.getElem?_map,
      List.getElem?_eq_getElem hj]
    simp [List.get_eq_getElem]
  rw [hg]
  exact Int.toNat_of_nonneg (by linarith [hw _ (List.get_mem ns j hj)])

/-- C6 witness: two healthy nodes of weights 2 and 1; in the second cycle
of 3 calls the first node is selected exactly twice. -/
theorem c6_amended_witness :
    (((wrrRun [] [mkNode "A" true 0 10 2, mkNode "B" true 0 10 1]
        ((1 + 1) * wsum [mkNode "A" true 0 10 2, mkNode "B" true 0 10 1])).1.drop
          (1 * wsum [mkNode "A" true 0 10 2, mkNode "B" true 0 10 1])).count
        (mkNode "A" true 0 10 2) : ℤ) = 2 := by
  have h := c6_amended [mkNode "A" true 0 10 2, mkNode "B" true 0 10 1]
    (by decide) (by decide) (by decide) 1 0 (by decide)
  simpa using h

end RdpSignal

